import Mathlib

/-!
Verification of the Markdown pipe-table core of `better-markdown-tables`
(`src/extension.ts`): the table parser (`parseMarkdownTable`,
`isSeparatorRow`), the table formatter (`generateMarkdownTable`), the sort
operation (`sortTable`), the webview grid operations (`removeLastRow`,
`removeLastColumn`) and the table span locator (`isTableRow`,
`findTableStart`, `findTableEnd`).

Strings are modelled as lists of characters; JavaScript's
`String.prototype.split` with a one-character separator, `Array.prototype.join`,
`String.prototype.trim`, `String.prototype.padEnd` and `Array.prototype.sort`
(a stable sort) are modelled by executable Lean functions below.  The
locale-dependent `localeCompare` ordering is modelled as code-point
lexicographic comparison.
-/

namespace MdTables

/-- A cell or a line of text: a JavaScript string as a list of characters. -/
abbrev Str := List Char

/-- A table grid: rows of cell strings, row code0 being the header. -/
abbrev Grid := List (List Str)

/-- Whitespace test backing the model of `String.prototype.trim` and of the
regex class `\s`. -/
def isWS (c : Char) : Bool :=
  c == ' ' || c == '\t' || c == '\n' || c == '\r'

/-- Model of `String.prototype.trim`: drop whitespace from both ends. -/
def trim (s : Str) : Str :=
  ((s.dropWhile isWS).reverse.dropWhile isWS).reverse

/-- Model of JavaScript `str.split(sep)` for a one-character separator. -/
def splitOnChar (sep : Char) : Str → List Str
  | [] => [[]]
  | c :: rest =>
    if c = sep then [] :: splitOnChar sep rest
    else
      match splitOnChar sep rest with
      | [] => [[c]]
      | s :: ss => (c :: s) :: ss

/-- Model of JavaScript `arr.join(sep)`. -/
def joinSep (sep : Str) : List Str → Str
  | [] => []
  | [x] => x
  | x :: y :: xs => x ++ sep ++ joinSep sep (y :: xs)

/-- The index-aware keep condition of the parser's cell filter
(`extension.ts` lines 266-271): drop an empty first cell and an empty last
cell; `n` is the length of the array being filtered. -/
def keepCell (n i : Nat) (cell : Str) : Bool :=
  !(i == 0 && cell.isEmpty) && !(i == n - 1 && cell.isEmpty)

/-- Model of `Array.prototype.filter` with the index-aware callback used by
the parser. -/
def filterCells (n : Nat) : Nat → List Str → List Str
  | _, [] => []
  | i, c :: cs =>
    if keepCell n i c then c :: filterCells n (i + 1) cs
    else filterCells n (i + 1) cs

/-- Cell extraction for one (already trimmed) line, `extension.ts` lines
263-271: split on the pipe character, trim each cell, then filter with
`keepCell`. -/
def parseLine (line : Str) : List Str :=
  filterCells ((splitOnChar '|' line).map trim).length 0
    ((splitOnChar '|' line).map trim)

/-- Model of `isSeparatorRow` (`extension.ts` lines 281-283): the regex
`^[\s\|:\-]+$` tests that the line is nonempty and made of whitespace,
pipes, colons and hyphens only. -/
def isSeparatorChar (c : Char) : Bool :=
  isWS c || c == '|' || c == ':' || c == '-'

/-- Model of `isSeparatorRow`. -/
def isSeparatorRow (line : Str) : Bool :=
  !line.isEmpty && line.all isSeparatorChar

/-- The nonempty (after trimming) lines of a text block, in order
(`extension.ts` line 253). -/
def structuralLines (text : Str) : List Str :=
  (splitOnChar '\n' text).filter (fun l => !(trim l).isEmpty)

/-- The parser's main loop (`extension.ts` lines 256-276), carrying the line
index `i`: the line at index 1 is skipped when it is a separator row, every
other line contributes its cells unless none survive the filter. -/
def parseRowsFrom (i : Nat) : List Str → Grid
  | [] => []
  | l :: ls =>
    if i == 1 && isSeparatorRow (trim l) then parseRowsFrom (i + 1) ls
    else
      if (parseLine (trim l)).isEmpty then parseRowsFrom (i + 1) ls
      else parseLine (trim l) :: parseRowsFrom (i + 1) ls

/-- Model of `parseMarkdownTable` (`extension.ts` lines 252-279). -/
def parseMarkdownTable (text : Str) : Grid :=
  parseRowsFrom 0 (structuralLines text)

/-- Model of `Math.max(...data.map(row => row.length))` folded over the rows
(`extension.ts` line 334). -/
def maxCols (data : Grid) : Nat :=
  (data.map List.length).foldl Nat.max 0

/-- Row normalization (`extension.ts` lines 336-342): append empty cells
until the row has `m` cells. -/
def normalizeRow (m : Nat) (row : List Str) : List Str :=
  row ++ List.replicate (m - row.length) []

/-- The normalized grid used by the formatter. -/
def normalizeData (data : Grid) : Grid :=
  data.map (normalizeRow (maxCols data))

/-- One pass of the column-width loop (`extension.ts` lines 345-349):
`colWidths[i] = Math.max(colWidths[i], row[i].length)` for every index of
the row. -/
def updWidths : List Nat → List Str → List Nat
  | w :: ws, c :: cs => Nat.max w c.length :: updWidths ws cs
  | ws, [] => ws
  | [], _ :: _ => []

/-- The per-column widths (`extension.ts` lines 344-349). -/
def colWidths (data : Grid) : List Nat :=
  (normalizeData data).foldl updWidths (List.replicate (maxCols data) 0)

/-- Model of `String.prototype.padEnd` with the space character. -/
def padEnd (s : Str) (w : Nat) : Str :=
  s ++ List.replicate (w - s.length) ' '

/-- The padded cells of one row (`extension.ts` line 355). -/
def padRow (ws : List Nat) (row : List Str) : List Str :=
  List.zipWith padEnd row ws

/-- Rendering of one pipe-delimited line from its cell texts:
the template `| cells.join(" | ") |`. -/
def renderCells (cells : List Str) : Str :=
  ['|', ' '] ++ joinSep [' ', '|', ' '] cells ++ [' ', '|']

/-- One emitted table row (`extension.ts` lines 355-356). -/
def renderRow (ws : List Nat) (row : List Str) : Str :=
  renderCells (padRow ws row)

/-- The emitted separator row (`extension.ts` lines 359-360): one dash run
per column width. -/
def renderSeparator (ws : List Nat) : Str :=
  renderCells (ws.map (fun w => List.replicate w '-'))

/-- Model of `generateMarkdownTable` (`extension.ts` lines 331-365). -/
def generateMarkdownTable (data : Grid) : Str :=
  if data.isEmpty then []
  else
    joinSep ['\n']
      (match normalizeData data with
       | [] => []
       | r0 :: rest =>
         renderRow (colWidths data) r0 :: renderSeparator (colWidths data)
           :: rest.map (renderRow (colWidths data)))

/-- The sort key of a row (`extension.ts` lines 226-227):
`(row[0] || "").trim().toLowerCase()`. -/
def sortKey (row : List Str) : Str :=
  (trim (row.headD [])).map Char.toLower

/-- Code-point lexicographic string comparison, the model of
`a.localeCompare(b) <= 0`. -/
def lexLe : Str → Str → Bool
  | [], _ => true
  | _ :: _, [] => false
  | a :: as, b :: bs =>
    if a < b then true else if b < a then false else lexLe as bs

/-- The sort comparator (`extension.ts` lines 225-234) as a boolean
"may come first" relation: ascending compares the keys directly, descending
compares them swapped. -/
def rowLe (ascending : Bool) (a b : List Str) : Bool :=
  if ascending then lexLe (sortKey a) (sortKey b)
  else lexLe (sortKey b) (sortKey a)

/-- Model of `sortTable` (`extension.ts` lines 212-238).  With one or zero
rows the code shows an information message and returns without writing the
document back; this outcome is modelled as `none`.  Otherwise the header is
held fixed and the data rows are sorted by the stable `Array.prototype.sort`,
modelled by `List.mergeSort`. -/
def sortTable (data : Grid) (ascending : Bool) : Option Grid :=
  if data.length ≤ 1 then none
  else some (data.headD [] :: data.tail.mergeSort (rowLe ascending))

/-- Model of the webview's `removeLastRow` (`extension.ts` lines 1074-1080). -/
def removeLastRow (tableData : Grid) : Grid :=
  if tableData.length > 1 then tableData.dropLast else tableData

/-- Model of the webview's `removeLastColumn` (`extension.ts` lines
1082-1088). -/
def removeLastColumn (tableData : Grid) : Grid :=
  if 0 < tableData.length && 1 < (tableData.headD []).length then
    tableData.map List.dropLast
  else tableData

/-- Model of `isTableRow` (`extension.ts` lines 96-99). -/
def isTableRow (line : Str) : Bool :=
  (trim line).contains '|' && 2 < (trim line).length

/-- Model of `findTableStart` (`extension.ts` lines 101-108): scan backward
for a non-table-like line; the result is an `Int` because the caller
compares it against `-1`. -/
def findTableStart (lines : List Str) : Nat → Int
  | 0 => if !isTableRow (lines.getD 0 []) then 1 else 0
  | i + 1 =>
    if !isTableRow (lines.getD (i + 1) []) then (i : Int) + 2
    else findTableStart lines i

/-- Model of `findTableEnd` (`extension.ts` lines 110-117): scan forward for
a non-table-like line. -/
def findTableEnd (lines : List Str) (i : Nat) : Int :=
  if i < lines.length then
    if !isTableRow (lines.getD i []) then (i : Int) - 1
    else findTableEnd lines (i + 1)
  else (lines.length : Int) - 1
termination_by lines.length - i

/-- Convenience conversion from string literals to the character-list model. -/
def strL (s : String) : Str := s.toList

/-- Index-free variant of the parser loop that applies the cell extraction to
every line with no separator skipping; used to state which single line the
separator check can ever remove. -/
def parseAll : List Str → Grid
  | [] => []
  | l :: ls =>
    if (parseLine (trim l)).isEmpty then parseAll ls
    else parseLine (trim l) :: parseAll ls

/-- Removal of the second structural line when it matches the separator
pattern: the only separator handling the parser performs. -/
def dropStructuralSeparator (ls : List Str) : List Str :=
  match ls with
  | l0 :: l1 :: rest => if isSeparatorRow (trim l1) then l0 :: rest else ls
  | _ => ls

/-- Modelled from the spec (claim C6's wording): drop a leading empty cell
when the line starts with a pipe. -/
def dropLeadingEmpty (line : Str) (cells : List Str) : List Str :=
  if line.headD ' ' = '|' then
    match cells with
    | [] :: rest => rest
    | _ => cells
  else cells

/-- Modelled from the spec (claim C6's wording): drop a trailing empty cell
when the line ends with a pipe. -/
def dropTrailingEmpty (line : Str) (cells : List Str) : List Str :=
  if (line.getLast?.getD ' ') = '|' then
    match cells.getLast? with
    | some [] => cells.dropLast
    | _ => cells
  else cells

/-- Modelled from the spec (claim C6's wording): the cells of a retained
line are obtained by splitting on pipe characters and trimming each cell,
then dropping a leading empty cell exactly when the line starts with a pipe
and a trailing empty cell exactly when the line ends with a pipe. -/
def specParseLine (line : Str) : List Str :=
  dropTrailingEmpty line (dropLeadingEmpty line ((splitOnChar '|' line).map trim))

/-- A cell as it sits inside a rendered line between two pipes: a space on
each side. -/
def wrapCell (c : Str) : Str := ' ' :: c ++ [' ']

/-! ### Facts about `trim` -/

theorem dropWhile_eq_nil_forall {p : α → Bool} :
    ∀ {l : List α}, l.dropWhile p = [] → ∀ a ∈ l, p a = true := by
  intro l
  induction l with
  | nil => intro _ a ha; cases ha
  | cons x xs ih =>
    intro h a ha
    rw [List.dropWhile_cons] at h
    by_cases hx : p x = true
    · rw [if_pos hx] at h
      cases ha with
      | head => exact hx
      | tail _ ha => exact ih h a ha
    · rw [if_neg hx] at h
      cases h

theorem length_dropWhile_le' {p : α → Bool} (l : List α) :
    (l.dropWhile p).length ≤ l.length := by
  induction l with
  | nil => simp
  | cons x xs ih =>
    rw [List.dropWhile_cons]
    by_cases hx : p x = true
    · rw [if_pos hx]
      exact Nat.le_trans ih (Nat.le_succ _)
    · rw [if_neg hx]

theorem trim_nil : trim [] = [] := rfl

theorem trim_length_le (s : Str) : (trim s).length ≤ s.length := by
  unfold trim
  rw [List.length_reverse]
  calc ((s.dropWhile isWS).reverse.dropWhile isWS).length
      ≤ (s.dropWhile isWS).reverse.length := length_dropWhile_le' _
    _ = (s.dropWhile isWS).length := List.length_reverse _
    _ ≤ s.length := length_dropWhile_le' _

theorem trim_ne_nil_of_mem {c : Char} {s : Str} (hc : c ∈ s)
    (hw : isWS c = false) : trim s ≠ [] := by
  intro h
  unfold trim at h
  rw [List.reverse_eq_nil_iff] at h
  have h2 := dropWhile_eq_nil_forall h
  have hmem : c ∈ (s.dropWhile isWS).reverse ∨ c ∈ s.takeWhile isWS := by
    rw [List.mem_reverse]
    have := List.takeWhile_append_dropWhile (p := isWS) (l := s)
    rw [← this] at hc
    rcases List.mem_append.mp hc with h' | h'
    · exact Or.inr h'
    · exact Or.inl h'
  rcases hmem with hm | hm
  · rw [h2 c hm] at hw; cases hw
  · have : isWS c = true := by
      have := List.takeWhile_append_dropWhile (p := isWS) (l := s)
      exact List.mem_takeWhile_imp hm
    rw [this] at hw; cases hw

theorem trim_cons_ws {c : Char} (hc : isWS c = true) (s : Str) :
    trim (c :: s) = trim s := by
  unfold trim
  rw [List.dropWhile_cons_of_pos hc]

theorem trim_append_ws {c : Char} (hc : isWS c = true) (s : Str) :
    trim (s ++ [c]) = trim s := by
  unfold trim
  rw [List.dropWhile_append]
  by_cases h : (s.dropWhile isWS).isEmpty = true
  · rw [if_pos h]
    rw [List.isEmpty_iff] at h
    rw [h]
    simp [List.dropWhile_cons, hc]
  · rw [if_neg h]
    rw [List.reverse_append]
    simp only [List.reverse_cons, List.reverse_nil, List.nil_append,
      List.singleton_append]
    rw [List.dropWhile_cons_of_pos hc]

theorem trim_append_replicate_ws (s : Str) :
    ∀ n, trim (s ++ List.replicate n ' ') = trim s := by
  intro n
  induction n generalizing s with
  | zero => simp
  | succ n ih =>
    rw [List.replicate_succ]
    have : s ++ (' ' :: List.replicate n ' ')
        = (s ++ [' ']) ++ List.replicate n ' ' := by simp
    rw [this, ih, trim_append_ws (by decide)]

theorem trim_wrapCell (c : Str) : trim (wrapCell c) = trim c := by
  show trim (' ' :: (c ++ [' '])) = trim c
  rw [trim_cons_ws (c := ' ') (by decide) (c ++ [' '])]
  exact trim_append_ws (by decide) c

theorem trim_padEnd (c : Str) (w : Nat) : trim (padEnd c w) = trim c := by
  unfold padEnd
  exact trim_append_replicate_ws c _

theorem trim_nonws_ends {a b : Char} (ha : isWS a = false)
    (hb : isWS b = false) (m : Str) :
    trim (a :: (m ++ [b])) = a :: (m ++ [b]) := by
  have hna : ¬ isWS a = true := by rw [ha]; exact Bool.false_ne_true
  have hnb : ¬ isWS b = true := by rw [hb]; exact Bool.false_ne_true
  unfold trim
  rw [List.dropWhile_cons_of_neg hna]
  have h1 : (a :: (m ++ [b])).reverse = b :: (m.reverse ++ [a]) := by
    simp
  rw [h1, List.dropWhile_cons_of_neg hnb]
  rw [← h1, List.reverse_reverse]

theorem head_not_ws_of_trimmed {c : Char} {t : Str}
    (h : trim (c :: t) = c :: t) : isWS c = false := by
  by_contra hw
  rw [Bool.not_eq_false] at hw
  have h1 : trim (c :: t) = trim t := trim_cons_ws hw t
  have h2 := trim_length_le t
  rw [h1] at h
  have : (c :: t).length ≤ t.length := by rw [← h]; exact h2
  simp at this

theorem last_not_ws_of_trimmed {c : Char} {t : Str}
    (h : trim (t ++ [c]) = t ++ [c]) : isWS c = false := by
  by_contra hw
  rw [Bool.not_eq_false] at hw
  have h1 : trim (t ++ [c]) = trim t := trim_append_ws hw t
  have h2 := trim_length_le t
  rw [h1] at h
  have : (t ++ [c]).length ≤ t.length := by rw [← h]; exact h2
  simp at this

/-! ### Facts about `splitOnChar` and `joinSep` -/

theorem splitOnChar_cons_self (sep : Char) (rest : Str) :
    splitOnChar sep (sep :: rest) = [] :: splitOnChar sep rest := by
  rw [splitOnChar, if_pos rfl]

theorem splitOnChar_cons_ne {sep c : Char} (hc : c ≠ sep) (rest : Str) :
    splitOnChar sep (c :: rest)
      = match splitOnChar sep rest with
        | [] => [[c]]
        | s :: ss => (c :: s) :: ss := by
  rw [splitOnChar, if_neg hc]

theorem splitOnChar_ne_nil (sep : Char) (l : Str) : splitOnChar sep l ≠ [] := by
  induction l with
  | nil => simp [splitOnChar]
  | cons c rest ih =>
    unfold splitOnChar
    by_cases h : c = sep
    · simp [h]
    · rw [if_neg h]
      rcases h' : splitOnChar sep rest with _ | ⟨s, ss⟩
      · exact absurd h' ih
      · simp

theorem splitOnChar_no_sep {sep : Char} :
    ∀ {l : Str}, sep ∉ l → splitOnChar sep l = [l] := by
  intro l
  induction l with
  | nil => intro _; rfl
  | cons c rest ih =>
    intro h
    have hc : c ≠ sep := fun he => h (he ▸ List.mem_cons_self c rest)
    have hr : sep ∉ rest := fun hm => h (List.mem_cons_of_mem c hm)
    unfold splitOnChar
    rw [if_neg hc, ih hr]

theorem splitOnChar_append_cons {sep : Char} :
    ∀ {p : Str}, sep ∉ p → ∀ rest,
      splitOnChar sep (p ++ sep :: rest) = p :: splitOnChar sep rest := by
  intro p
  induction p with
  | nil =>
    intro _ rest
    simp only [List.nil_append]
    exact splitOnChar_cons_self sep rest
  | cons c p' ih =>
    intro h rest
    have hc : c ≠ sep := fun he => h (he ▸ List.mem_cons_self c p')
    have hp : sep ∉ p' := fun hm => h (List.mem_cons_of_mem c hm)
    have h2 := ih hp rest
    show splitOnChar sep (c :: (p' ++ sep :: rest)) = (c :: p') :: splitOnChar sep rest
    rw [splitOnChar_cons_ne hc, h2]

theorem joinSep_cons₂ (s : Str) (x y : Str) (t : List Str) :
    joinSep s (x :: y :: t) = x ++ s ++ joinSep s (y :: t) := rfl

theorem joinSep_cons_cons (s : Str) (c : Char) (h : Str) (t : List Str) :
    joinSep s ((c :: h) :: t) = c :: joinSep s (h :: t) := by
  cases t with
  | nil => rfl
  | cons y t' => rfl

theorem splitOnChar_joinSep {sep : Char} :
    ∀ {ps : List Str}, ps ≠ [] → (∀ p ∈ ps, sep ∉ p) →
      splitOnChar sep (joinSep [sep] ps) = ps := by
  intro ps
  induction ps with
  | nil => intro h; cases h rfl
  | cons p t ih =>
    intro _ hfree
    cases t with
    | nil =>
      show splitOnChar sep (joinSep [sep] [p]) = [p]
      have : joinSep [sep] [p] = p := rfl
      rw [this]
      exact splitOnChar_no_sep (hfree p (List.mem_cons_self _ _))
    | cons q t' =>
      rw [joinSep_cons₂]
      have hp : sep ∉ p := hfree p (List.mem_cons_self _ _)
      have : p ++ [sep] ++ joinSep [sep] (q :: t')
          = p ++ sep :: joinSep [sep] (q :: t') := by simp
      rw [this, splitOnChar_append_cons hp]
      congr 1
      exact ih (by simp) (fun x hx => hfree x (List.mem_cons_of_mem _ hx))

theorem mem_joinSep {x : Char} {s : Str} :
    ∀ {ps : List Str}, x ∈ joinSep s ps → x ∈ s ∨ ∃ p ∈ ps, x ∈ p := by
  intro ps
  induction ps with
  | nil => intro h; cases h
  | cons p t ih =>
    intro h
    cases t with
    | nil =>
      exact Or.inr ⟨p, List.mem_cons_self _ _, h⟩
    | cons q t' =>
      rw [joinSep_cons₂] at h
      rcases List.mem_append.mp h with h' | h'
      · rcases List.mem_append.mp h' with h'' | h''
        · exact Or.inr ⟨p, List.mem_cons_self _ _, h''⟩
        · exact Or.inl h''
      · rcases ih h' with h'' | ⟨r, hr, hxr⟩
        · exact Or.inl h''
        · exact Or.inr ⟨r, List.mem_cons_of_mem _ hr, hxr⟩

theorem not_mem_of_mem_splitOnChar {sep : Char} :
    ∀ {l p : Str}, p ∈ splitOnChar sep l → sep ∉ p := by
  intro l
  induction l with
  | nil =>
    intro p hp
    rw [show splitOnChar sep [] = [[]] from rfl, List.mem_singleton] at hp
    subst hp
    simp
  | cons c rest ih =>
    intro p hp
    by_cases hc : c = sep
    · subst hc
      rw [splitOnChar_cons_self] at hp
      rcases List.mem_cons.mp hp with h | h
      · subst h; simp
      · exact ih h
    · rw [splitOnChar_cons_ne hc] at hp
      rcases hsp : splitOnChar sep rest with _ | ⟨s, ss⟩
      · exact absurd hsp (splitOnChar_ne_nil sep rest)
      · rw [hsp] at hp
        rcases List.mem_cons.mp hp with h | h
        · subst h
          intro hm
          rcases List.mem_cons.mp hm with h' | h'
          · exact hc h'.symm
          · exact ih (by rw [hsp]; exact List.mem_cons_self s ss) h'
        · exact ih (by rw [hsp]; exact List.mem_cons_of_mem s h)

theorem joinSep_splitOnChar (sep : Char) :
    ∀ l : Str, joinSep [sep] (splitOnChar sep l) = l := by
  intro l
  induction l with
  | nil => rfl
  | cons c rest ih =>
    by_cases hc : c = sep
    · subst hc
      rw [splitOnChar_cons_self]
      rcases hsp : splitOnChar c rest with _ | ⟨s, ss⟩
      · exact absurd hsp (splitOnChar_ne_nil c rest)
      · have ih' : joinSep [c] (s :: ss) = rest := by rw [← hsp]; exact ih
        rw [joinSep_cons₂, ih']
        simp
    · rw [splitOnChar_cons_ne hc]
      rcases hsp : splitOnChar sep rest with _ | ⟨s, ss⟩
      · exact absurd hsp (splitOnChar_ne_nil sep rest)
      · have ih' : joinSep [sep] (s :: ss) = rest := by rw [← hsp]; exact ih
        show joinSep [sep] ((c :: s) :: ss) = c :: rest
        rw [joinSep_cons_cons, ih']

/-! ### Shape of a rendered line -/

theorem renderCells_shape (cs : List Str) :
    renderCells cs
      = '|' :: ((' ' :: (joinSep [' ', '|', ' '] cs ++ [' '])) ++ ['|']) := by
  unfold renderCells
  simp

theorem trim_renderCells (cs : List Str) :
    trim (renderCells cs) = renderCells cs := by
  rw [renderCells_shape]
  exact trim_nonws_ends (by decide) (by decide) _

theorem renderCells_ne_nil (cs : List Str) : renderCells cs ≠ [] := by
  rw [renderCells_shape]
  simp

theorem mem_renderCells {x : Char} {cs : List Str}
    (h : x ∈ renderCells cs) : x = '|' ∨ x = ' ' ∨ ∃ c ∈ cs, x ∈ c := by
  unfold renderCells at h
  rcases List.mem_append.mp h with h' | h'
  · rcases List.mem_append.mp h' with h'' | h''
    · rcases List.mem_cons.mp h'' with h3 | h3
      · exact Or.inl h3
      · rcases List.mem_cons.mp h3 with h4 | h4
        · exact Or.inr (Or.inl h4)
        · cases h4
    · rcases mem_joinSep h'' with h3 | h3
      · rcases List.mem_cons.mp h3 with h4 | h4
        · exact Or.inr (Or.inl h4)
        · rcases List.mem_cons.mp h4 with h5 | h5
          · exact Or.inl h5
          · rcases List.mem_cons.mp h5 with h6 | h6
            · exact Or.inr (Or.inl h6)
            · cases h6
      · exact Or.inr (Or.inr h3)
  · rcases List.mem_cons.mp h' with h'' | h''
    · exact Or.inr (Or.inl h'')
    · rcases List.mem_cons.mp h'' with h3 | h3
      · exact Or.inl h3
      · cases h3

theorem not_pipe_mem_wrapCell {c : Str} (hc : '|' ∉ c) :
    '|' ∉ wrapCell c := by
  unfold wrapCell
  intro h
  rcases List.mem_cons.mp h with h' | h'
  · cases h'
  · rcases List.mem_append.mp h' with h'' | h''
    · exact hc h''
    · rcases List.mem_cons.mp h'' with h3 | h3
      · cases h3
      · cases h3

theorem splitOnChar_wrap_aux :
    ∀ cs : List Str, cs ≠ [] → (∀ c ∈ cs, '|' ∉ c) →
      splitOnChar '|' (' ' :: (joinSep [' ', '|', ' '] cs ++ [' ', '|']))
        = cs.map wrapCell ++ [[]] := by
  intro cs
  induction cs with
  | nil => intro h; cases h rfl
  | cons c t ih =>
    intro _ hfree
    have hw : '|' ∉ wrapCell c :=
      not_pipe_mem_wrapCell (hfree c (List.mem_cons_self _ _))
    cases t with
    | nil =>
      have h1 : ' ' :: (joinSep [' ', '|', ' '] [c] ++ [' ', '|'])
          = wrapCell c ++ '|' :: [] := by
        show ' ' :: (c ++ [' ', '|']) = wrapCell c ++ '|' :: []
        unfold wrapCell
        simp
      rw [h1, splitOnChar_append_cons hw]
      rfl
    | cons c' t' =>
      have h1 : ' ' :: (joinSep [' ', '|', ' '] (c :: c' :: t') ++ [' ', '|'])
          = wrapCell c
            ++ '|' :: (' ' :: (joinSep [' ', '|', ' '] (c' :: t') ++ [' ', '|'])) := by
        rw [joinSep_cons₂]
        unfold wrapCell
        simp
      rw [h1, splitOnChar_append_cons hw]
      rw [ih (by simp) (fun x hx => hfree x (List.mem_cons_of_mem _ hx))]
      rfl

theorem splitOnChar_renderCells (cs : List Str) (hne : cs ≠ [])
    (hfree : ∀ c ∈ cs, '|' ∉ c) :
    splitOnChar '|' (renderCells cs) = [] :: (cs.map wrapCell ++ [[]]) := by
  have h1 : renderCells cs
      = '|' :: (' ' :: (joinSep [' ', '|', ' '] cs ++ [' ', '|'])) := by
    unfold renderCells
    simp
  rw [h1, splitOnChar_cons_self, splitOnChar_wrap_aux cs hne hfree]

/-! ### The cell filter on a rendered line -/

theorem keepCell_middle {n i : Nat} (h0 : i ≠ 0) (h1 : i ≠ n - 1) (c : Str) :
    keepCell n i c = true := by
  unfold keepCell
  have e0 : (i == 0) = false := by
    rw [beq_eq_false_iff_ne]
    exact h0
  have e1 : (i == n - 1) = false := by
    rw [beq_eq_false_iff_ne]
    exact h1
  rw [e0, e1]
  rfl

theorem filterCells_tail (el : Str) :
    ∀ (mid : List Str) (j n : Nat), 1 ≤ j → j + mid.length + 1 = n →
      filterCells n j (mid ++ [el]) = mid ++ (if el.isEmpty then [] else [el]) := by
  intro mid
  induction mid with
  | nil =>
    intro j n hj hn
    simp only [List.length_nil] at hn
    show filterCells n j (el :: []) = if el.isEmpty then [] else [el]
    have hk : keepCell n j el = !el.isEmpty := by
      unfold keepCell
      have e0 : (j == 0) = false := by
        rw [beq_eq_false_iff_ne]
        omega
      have e1 : (j == n - 1) = true := by
        rw [beq_iff_eq]
        omega
      rw [e0, e1]
      cases el.isEmpty <;> rfl
    unfold filterCells
    rw [hk]
    cases h : el.isEmpty
    · show (if true = true then el :: filterCells n (j + 1) [] else _) = _
      rw [if_pos rfl]
      rfl
    · show (if false = true then _ else filterCells n (j + 1) []) = _
      rw [if_neg (by simp)]
      rfl
  | cons m mid ih =>
    intro j n hj hn
    show filterCells n j (m :: (mid ++ [el])) = _
    unfold filterCells
    have hk : keepCell n j m = true := by
      apply keepCell_middle
      · omega
      · simp only [List.length_cons] at hn
        omega
    rw [hk, if_pos rfl]
    have := ih (j + 1) n (by omega) (by simp only [List.length_cons] at hn; omega)
    rw [this]
    rfl

theorem parseLine_renderCells (cs : List Str) (hne : cs ≠ [])
    (hfree : ∀ c ∈ cs, '|' ∉ c) :
    parseLine (renderCells cs) = cs.map trim := by
  unfold parseLine
  rw [splitOnChar_renderCells cs hne hfree]
  have hmap : ([] :: (cs.map wrapCell ++ [[]])).map trim
      = [] :: (cs.map trim ++ [[]]) := by
    simp only [List.map_cons, List.map_append, List.map_map]
    have : cs.map (trim ∘ wrapCell) = cs.map trim :=
      List.map_congr_left (fun c _ => trim_wrapCell c)
    rw [this]
    rfl
  rw [hmap]
  have hlen : ([] :: (cs.map trim ++ [[]]) : List Str).length = cs.length + 2 := by
    simp
  show filterCells ([] :: (cs.map trim ++ [[]]) : List Str).length 0
      ([] :: (cs.map trim ++ [[]])) = cs.map trim
  rw [hlen]
  unfold filterCells
  have hk : keepCell (cs.length + 2) 0 [] = false := by
    unfold keepCell
    rfl
  rw [hk]
  rw [if_neg (by simp)]
  have := filterCells_tail [] (cs.map trim) 1 (cs.length + 2)
    (by omega) (by simp only [List.length_map]; omega)
  rw [this]
  simp

/-! ### Padded rows and the separator line -/

theorem map_trim_padRow :
    ∀ (row : List Str) (ws : List Nat), row.length = ws.length →
      (padRow ws row).map trim = row.map trim := by
  intro row
  induction row with
  | nil =>
    intro ws h
    cases ws with
    | nil => rfl
    | cons w ws' => simp at h
  | cons c row' ih =>
    intro ws h
    cases ws with
    | nil => simp at h
    | cons w ws' =>
      show (padEnd c w :: padRow ws' row').map trim = _
      simp only [List.map_cons]
      rw [trim_padEnd, ih ws' (by simpa using h)]

theorem mem_padRow {d : Str} :
    ∀ {row : List Str} {ws : List Nat}, d ∈ padRow ws row →
      ∃ c ∈ row, ∃ w, d = padEnd c w := by
  intro row
  induction row with
  | nil =>
    intro ws h
    cases ws with
    | nil => cases h
    | cons w ws' => cases h
  | cons c row' ih =>
    intro ws h
    cases ws with
    | nil => cases h
    | cons w ws' =>
      rcases List.mem_cons.mp h with h' | h'
      · exact ⟨c, List.mem_cons_self _ _, w, h'⟩
      · rcases ih h' with ⟨c', hc', w', he⟩
        exact ⟨c', List.mem_cons_of_mem _ hc', w', he⟩

theorem mem_renderRow {x : Char} {ws : List Nat} {row : List Str}
    (h : x ∈ renderRow ws row) : x = '|' ∨ x = ' ' ∨ ∃ c ∈ row, x ∈ c := by
  unfold renderRow at h
  rcases mem_renderCells h with h' | h' | ⟨d, hd, hxd⟩
  · exact Or.inl h'
  · exact Or.inr (Or.inl h')
  · rcases mem_padRow hd with ⟨c, hc, w, he⟩
    subst he
    unfold padEnd at hxd
    rcases List.mem_append.mp hxd with h'' | h''
    · exact Or.inr (Or.inr ⟨c, hc, h''⟩)
    · exact Or.inr (Or.inl (List.eq_of_mem_replicate h''))

theorem mem_renderSeparator {x : Char} {ws : List Nat}
    (h : x ∈ renderSeparator ws) : isSeparatorChar x = true := by
  unfold renderSeparator at h
  rcases mem_renderCells h with h' | h' | ⟨d, hd, hxd⟩
  · subst h'; rfl
  · subst h'; rfl
  · rcases List.mem_map.mp hd with ⟨w, hw, he⟩
    rw [← he] at hxd
    have h2 := List.eq_of_mem_replicate hxd
    subst h2
    rfl

theorem isSeparatorRow_renderSeparator (ws : List Nat) :
    isSeparatorRow (renderSeparator ws) = true := by
  have h1 : renderSeparator ws ≠ [] := renderCells_ne_nil _
  rcases h2 : renderSeparator ws with _ | ⟨a, t⟩
  · exact absurd h2 h1
  · unfold isSeparatorRow
    rw [Bool.and_eq_true]
    constructor
    · rfl
    · rw [List.all_eq_true]
      intro x hx
      exact mem_renderSeparator (h2 ▸ hx)

/-! ### Column counts and widths -/

theorem foldl_max_init_le (l : List Nat) : ∀ b : Nat, b ≤ l.foldl Nat.max b := by
  induction l with
  | nil => intro b; exact Nat.le_refl b
  | cons x xs ih =>
    intro b
    exact Nat.le_trans (Nat.le_max_left b x) (ih (Nat.max b x))

theorem le_foldl_max (a : Nat) :
    ∀ (l : List Nat) (b : Nat), a ∈ l → a ≤ l.foldl Nat.max b := by
  intro l
  induction l with
  | nil => intro b h; cases h
  | cons x xs ih =>
    intro b h
    rcases List.mem_cons.mp h with h' | h'
    · subst h'
      exact Nat.le_trans (Nat.le_max_right b a) (foldl_max_init_le xs _)
    · exact ih _ h'

theorem foldl_max_const (k : Nat) :
    ∀ (l : List Nat) (b : Nat), (∀ x ∈ l, x = k) → b ≤ k → l ≠ [] →
      l.foldl Nat.max b = k := by
  intro l
  induction l with
  | nil => intro b _ _ h; cases h rfl
  | cons x xs ih =>
    intro b hall hb _
    have hx : x = k := hall x (List.mem_cons_self _ _)
    subst hx
    show xs.foldl Nat.max (Nat.max b x) = x
    cases xs with
    | nil =>
      show Nat.max b x = x
      exact Nat.max_eq_right hb
    | cons y ys =>
      exact ih _ (fun z hz => hall z (List.mem_cons_of_mem _ hz))
        (Nat.max_le.mpr ⟨hb, Nat.le_refl x⟩) (by simp)

theorem length_le_maxCols {g : Grid} {r : List Str} (h : r ∈ g) :
    r.length ≤ maxCols g := by
  unfold maxCols
  exact le_foldl_max r.length _ 0 (List.mem_map_of_mem List.length h)

theorem maxCols_of_uniform {g : Grid} {k : Nat} (hne : g ≠ [])
    (h : ∀ r ∈ g, r.length = k) : maxCols g = k := by
  unfold maxCols
  apply foldl_max_const
  · intro x hx
    rcases List.mem_map.mp hx with ⟨r, hr, he⟩
    rw [← he]
    exact h r hr
  · exact Nat.zero_le k
  · rw [Ne, List.map_eq_nil_iff]
    exact hne

theorem normalizeRow_length {m : Nat} {r : List Str} (h : r.length ≤ m) :
    (normalizeRow m r).length = m := by
  unfold normalizeRow
  simp
  omega

theorem normalizeRow_self {m : Nat} {r : List Str} (h : r.length = m) :
    normalizeRow m r = r := by
  unfold normalizeRow
  rw [h, Nat.sub_self]
  simp

theorem normalizeData_row_length {g : Grid} {r : List Str}
    (h : r ∈ normalizeData g) : r.length = maxCols g := by
  unfold normalizeData at h
  rcases List.mem_map.mp h with ⟨r', hr', he⟩
  rw [← he]
  exact normalizeRow_length (length_le_maxCols hr')

theorem cell_of_normalizeData {g : Grid} {r : List Str} {c : Str}
    (hr : r ∈ normalizeData g) (hc : c ∈ r) :
    c = [] ∨ ∃ r' ∈ g, c ∈ r' := by
  unfold normalizeData at hr
  rcases List.mem_map.mp hr with ⟨r', hr', he⟩
  rw [← he] at hc
  unfold normalizeRow at hc
  rcases List.mem_append.mp hc with h' | h'
  · exact Or.inr ⟨r', hr', h'⟩
  · exact Or.inl (List.eq_of_mem_replicate h')

theorem updWidths_length :
    ∀ (ws : List Nat) (cs : List Str), cs.length ≤ ws.length →
      (updWidths ws cs).length = ws.length := by
  intro ws
  induction ws with
  | nil =>
    intro cs h
    cases cs with
    | nil => rfl
    | cons c cs' => simp at h
  | cons w ws' ih =>
    intro cs h
    cases cs with
    | nil => rfl
    | cons c cs' =>
      show (Nat.max w c.length :: updWidths ws' cs').length = _
      simp only [List.length_cons]
      rw [ih cs' (by simpa using h)]

theorem foldl_updWidths_length :
    ∀ (rows : Grid) (ws : List Nat), (∀ r ∈ rows, r.length ≤ ws.length) →
      (rows.foldl updWidths ws).length = ws.length := by
  intro rows
  induction rows with
  | nil => intro ws _; rfl
  | cons r rows' ih =>
    intro ws hall
    show (rows'.foldl updWidths (updWidths ws r)).length = ws.length
    have h1 : (updWidths ws r).length = ws.length :=
      updWidths_length ws r (hall r (List.mem_cons_self _ _))
    rw [ih (updWidths ws r)
      (fun x hx => by rw [h1]; exact hall x (List.mem_cons_of_mem _ hx)), h1]

theorem colWidths_length (g : Grid) : (colWidths g).length = maxCols g := by
  unfold colWidths
  rw [foldl_updWidths_length]
  · simp
  · intro r hr
    rw [List.length_replicate, normalizeData_row_length hr]

/-! ### Structural lines of a rendered table -/

theorem structuralLines_joinSep {ls : List Str} (hne : ls ≠ [])
    (hprops : ∀ l ∈ ls, trim l = l ∧ l ≠ [] ∧ '\n' ∉ l) :
    structuralLines (joinSep ['\n'] ls) = ls := by
  unfold structuralLines
  rw [splitOnChar_joinSep hne (fun p hp => (hprops p hp).2.2)]
  rw [List.filter_eq_self]
  intro l hl
  rcases hprops l hl with ⟨h1, h2, _⟩
  show (!(trim l).isEmpty) = true
  rw [h1]
  cases l with
  | nil => cases h2 rfl
  | cons a t => rfl

theorem parseRowsFrom_ge_two :
    ∀ (ls : List Str) (i : Nat), 2 ≤ i → parseRowsFrom i ls = parseAll ls := by
  intro ls
  induction ls with
  | nil => intro i _; rfl
  | cons l ls' ih =>
    intro i hi
    have h1 : (i == 1) = false := by
      rw [beq_eq_false_iff_ne]
      omega
    show parseRowsFrom i (l :: ls') = parseAll (l :: ls')
    rw [parseRowsFrom, parseAll, h1]
    rw [Bool.false_and, if_neg (by simp)]
    rw [ih (i + 1) (by omega)]

/-! ### Round trip: parsing a formatted table -/

theorem not_mem_padEnd {x : Char} {c : Str} (hx : x ≠ ' ') (hc : x ∉ c)
    (w : Nat) : x ∉ padEnd c w := by
  unfold padEnd
  intro h
  rcases List.mem_append.mp h with h' | h'
  · exact hc h'
  · exact hx (List.eq_of_mem_replicate h')

theorem padRow_length (ws : List Nat) (row : List Str) :
    (padRow ws row).length = min row.length ws.length := by
  unfold padRow
  exact List.length_zipWith padEnd row ws

theorem mem_renderSeparator_chars {x : Char} {ws : List Nat}
    (h : x ∈ renderSeparator ws) : x = '|' ∨ x = ' ' ∨ x = '-' := by
  unfold renderSeparator at h
  rcases mem_renderCells h with h' | h' | ⟨d, hd, hxd⟩
  · exact Or.inl h'
  · exact Or.inr (Or.inl h')
  · rcases List.mem_map.mp hd with ⟨w, hw, he⟩
    rw [← he] at hxd
    exact Or.inr (Or.inr (List.eq_of_mem_replicate hxd))

theorem trim_renderSeparator (ws : List Nat) :
    trim (renderSeparator ws) = renderSeparator ws := by
  unfold renderSeparator
  exact trim_renderCells _

theorem normalizeData_ne_nil {g : Grid} (h : g ≠ []) : normalizeData g ≠ [] := by
  unfold normalizeData
  rw [Ne, List.map_eq_nil_iff]
  exact h

theorem parseLine_renderRow (ws : List Nat) (r : List Str)
    (hlen : r.length = ws.length) (hws : 1 ≤ ws.length)
    (hfree : ∀ c ∈ r, '|' ∉ c) :
    parseLine (trim (renderRow ws r)) = r.map trim := by
  unfold renderRow
  rw [trim_renderCells]
  rw [parseLine_renderCells]
  · exact map_trim_padRow r ws hlen
  · intro h
    have h2 := padRow_length ws r
    rw [h, hlen, Nat.min_self] at h2
    rw [← h2] at hws
    simp at hws
  · intro d hd
    rcases mem_padRow hd with ⟨c, hc, w, he⟩
    subst he
    exact not_mem_padEnd (by decide) (hfree c hc) w

theorem parseLine_renderRow_ne_nil (ws : List Nat) (r : List Str)
    (hlen : r.length = ws.length) (hws : 1 ≤ ws.length)
    (hfree : ∀ c ∈ r, '|' ∉ c) :
    (parseLine (trim (renderRow ws r))).isEmpty = false := by
  rw [parseLine_renderRow ws r hlen hws hfree]
  cases r with
  | nil =>
    rw [List.length_nil] at hlen
    omega
  | cons c r' => rfl

theorem parseAll_map_renderRow (ws : List Nat) (hws : 1 ≤ ws.length) :
    ∀ rows : Grid, (∀ r ∈ rows, r.length = ws.length) →
      (∀ r ∈ rows, ∀ c ∈ r, '|' ∉ c) →
      parseAll (rows.map (renderRow ws)) = rows.map (List.map trim) := by
  intro rows
  induction rows with
  | nil => intro _ _; rfl
  | cons r rows' ih =>
    intro hlen hfree
    show parseAll (renderRow ws r :: rows'.map (renderRow ws)) = _
    rw [parseAll]
    rw [parseLine_renderRow_ne_nil ws r (hlen r (List.mem_cons_self _ _)) hws
      (hfree r (List.mem_cons_self _ _))]
    rw [if_neg (by simp)]
    rw [parseLine_renderRow ws r (hlen r (List.mem_cons_self _ _)) hws
      (hfree r (List.mem_cons_self _ _))]
    rw [ih (fun x hx => hlen x (List.mem_cons_of_mem _ hx))
      (fun x hx => hfree x (List.mem_cons_of_mem _ hx))]
    rfl

theorem roundTrip_core (g : Grid) (hne : g ≠ []) (hw : 1 ≤ maxCols g)
    (hclean : ∀ r ∈ g, ∀ c ∈ r, '|' ∉ c ∧ '\n' ∉ c) :
    parseMarkdownTable (generateMarkdownTable g)
      = (normalizeData g).map (List.map trim) := by
  have hie : g.isEmpty = false := by
    cases g with
    | nil => cases hne rfl
    | cons r t => rfl
  have hfreeR : ∀ r ∈ normalizeData g, ∀ c ∈ r, '|' ∉ c := by
    intro r hr c hc
    rcases cell_of_normalizeData hr hc with h | ⟨r', hr', hc'⟩
    · subst h; simp
    · exact (hclean r' hr' c hc').1
  have hnlR : ∀ r ∈ normalizeData g, ∀ c ∈ r, '\n' ∉ c := by
    intro r hr c hc
    rcases cell_of_normalizeData hr hc with h | ⟨r', hr', hc'⟩
    · subst h; simp
    · exact (hclean r' hr' c hc').2
  have hlenR : ∀ r ∈ normalizeData g, r.length = (colWidths g).length := by
    intro r hr
    rw [colWidths_length]
    exact normalizeData_row_length hr
  have hwsl : 1 ≤ (colWidths g).length := by
    rw [colWidths_length]
    exact hw
  rcases hnorm : normalizeData g with _ | ⟨r0, rest⟩
  · exact absurd hnorm (normalizeData_ne_nil hne)
  · rw [parseMarkdownTable, generateMarkdownTable, hie]
    rw [if_neg (by simp), hnorm]
    have hlineprops : ∀ l ∈ (renderRow (colWidths g) r0 :: renderSeparator (colWidths g)
        :: rest.map (renderRow (colWidths g))), trim l = l ∧ l ≠ [] ∧ '\n' ∉ l := by
      intro l hl
      have hsep : trim (renderSeparator (colWidths g)) = renderSeparator (colWidths g) :=
        trim_renderSeparator _
      rcases List.mem_cons.mp hl with h | h
      · subst h
        refine ⟨trim_renderCells _, renderCells_ne_nil _, ?_⟩
        intro hmm
        rcases mem_renderRow hmm with h' | h' | ⟨c, hc, hcc⟩
        · cases h'
        · cases h'
        · exact hnlR r0 (by rw [hnorm]; exact List.mem_cons_self _ _) c hc hcc
      · rcases List.mem_cons.mp h with h' | h'
        · subst h'
          refine ⟨hsep, renderCells_ne_nil _, ?_⟩
          intro hmm
          rcases mem_renderSeparator_chars hmm with h2 | h2 | h2 <;> cases h2
        · rcases List.mem_map.mp h' with ⟨r, hr, he⟩
          subst he
          refine ⟨trim_renderCells _, renderCells_ne_nil _, ?_⟩
          intro hmm
          rcases mem_renderRow hmm with h2 | h2 | ⟨c, hc, hcc⟩
          · cases h2
          · cases h2
          · exact hnlR r (by rw [hnorm]; exact List.mem_cons_of_mem _ hr) c hc hcc
    rw [structuralLines_joinSep (by simp) hlineprops]
    have hr0mem : r0 ∈ normalizeData g := by
      rw [hnorm]; exact List.mem_cons_self _ _
    have hr0len : r0.length = (colWidths g).length := hlenR r0 hr0mem
    have hr0free : ∀ c ∈ r0, '|' ∉ c := hfreeR r0 hr0mem
    rw [parseRowsFrom]
    have hc0 : ((0 == 1 : Bool)
        && isSeparatorRow (trim (renderRow (colWidths g) r0))) = false := by
      rfl
    rw [hc0, if_neg (by simp)]
    rw [parseLine_renderRow_ne_nil _ r0 hr0len hwsl hr0free]
    rw [if_neg (by simp)]
    rw [parseLine_renderRow _ r0 hr0len hwsl hr0free]
    rw [parseRowsFrom]
    have hc1 : ((1 == 1 : Bool)
        && isSeparatorRow (trim (renderSeparator (colWidths g)))) = true := by
      rw [trim_renderSeparator, isSeparatorRow_renderSeparator]
      rfl
    rw [hc1, if_pos rfl]
    rw [parseRowsFrom_ge_two _ 2 (Nat.le_refl 2)]
    rw [parseAll_map_renderRow (colWidths g) hwsl rest
      (fun r hr => hlenR r (by rw [hnorm]; exact List.mem_cons_of_mem _ hr))
      (fun r hr => hfreeR r (by rw [hnorm]; exact List.mem_cons_of_mem _ hr))]
    rfl

theorem normalizeData_of_uniform {g : Grid} {k : Nat} (hne : g ≠ [])
    (hrag : ∀ r ∈ g, r.length = k) : normalizeData g = g := by
  unfold normalizeData
  rw [maxCols_of_uniform hne hrag]
  have h1 : ∀ r ∈ g, normalizeRow k r = r :=
    fun r hr => normalizeRow_self (hrag r hr)
  rw [List.map_congr_left h1]
  exact List.map_id g

/-! ### Claim C1: round-trip stability -/

/-- Claim C1, counterexample to the claim as stated: the grid
`[["x"], ["a\nb"]]` is non-ragged and none of its cells contains a pipe
character, yet formatting and re-parsing does not return the trimmed
original: the cell containing a line break is torn into two extra rows.
A second failure, `[[], []]` (rows with zero cells), re-parses into rows
of one empty cell each. -/
theorem c1_counterexample :
    ((∀ r ∈ ([[strL ("x")], [strL ("a\nb")]] : Grid), r.length = 1)
      ∧ (∀ r ∈ ([[strL ("x")], [strL ("a\nb")]] : Grid), ∀ c ∈ r, '|' ∉ c)
      ∧ parseMarkdownTable (generateMarkdownTable [[strL ("x")], [strL ("a\nb")]])
          ≠ [[strL ("x")], [strL ("a\nb")]].map (List.map trim))
    ∧ ((∀ r ∈ ([[], []] : Grid), r.length = 0)
      ∧ parseMarkdownTable (generateMarkdownTable [[], []])
          ≠ ([[], []] : Grid).map (List.map trim)) := by
  decide

/-- Claim C1 (amended): for every non-ragged Grid with at least one column
per row whose cells contain no internal pipe characters and no line-break
characters, formatting with `generateMarkdownTable` and re-parsing with
`parseMarkdownTable` yields the Grid of trimmed cell contents of the
original. -/
theorem c1_roundtrip (g : Grid) (k : Nat) (hk : 1 ≤ k)
    (hrag : ∀ r ∈ g, r.length = k)
    (hclean : ∀ r ∈ g, ∀ c ∈ r, '|' ∉ c ∧ '\n' ∉ c) :
    parseMarkdownTable (generateMarkdownTable g) = g.map (List.map trim) := by
  cases g with
  | nil => rfl
  | cons r t =>
    have hmc : maxCols (r :: t) = k := maxCols_of_uniform (by simp) hrag
    have hnd : normalizeData (r :: t) = r :: t :=
      normalizeData_of_uniform (by simp) hrag
    rw [roundTrip_core (r :: t) (by simp) (by rw [hmc]; exact hk) hclean, hnd]

/-- Claim C1, witness: the amended round-trip theorem applied to the
concrete grid `[["a"], [" b "]]`. -/
theorem c1_roundtrip_witness :
    parseMarkdownTable (generateMarkdownTable [[strL ("a")], [strL (" b ")]])
      = [[strL ("a")], [strL (" b ")]].map (List.map trim) :=
  c1_roundtrip [[strL ("a")], [strL (" b ")]] 1 (by decide) (by decide) (by decide)

/-! ### Idempotence machinery -/

theorem map_trim_self {r : List Str} (h : ∀ c ∈ r, trim c = c) :
    r.map trim = r := by
  rw [List.map_congr_left h]
  exact List.map_id r

theorem map_trim_normalizeData {g : Grid}
    (ht : ∀ r ∈ g, ∀ c ∈ r, trim c = c) :
    (normalizeData g).map (List.map trim) = normalizeData g := by
  have h1 : ∀ r ∈ normalizeData g, r.map trim = r := by
    intro r hr
    apply map_trim_self
    intro c hc
    rcases cell_of_normalizeData hr hc with h | ⟨r', hr', hc'⟩
    · subst h; rfl
    · exact ht r' hr' c hc'
  rw [List.map_congr_left h1]
  exact List.map_id _

theorem maxCols_normalizeData {g : Grid} (hne : g ≠ []) :
    maxCols (normalizeData g) = maxCols g :=
  maxCols_of_uniform (normalizeData_ne_nil hne)
    (fun _ hr => normalizeData_row_length hr)

theorem normalizeData_idem {g : Grid} (hne : g ≠ []) :
    normalizeData (normalizeData g) = normalizeData g :=
  normalizeData_of_uniform (normalizeData_ne_nil hne)
    (fun _ hr => normalizeData_row_length hr)

theorem colWidths_normalizeData {g : Grid} (hne : g ≠ []) :
    colWidths (normalizeData g) = colWidths g := by
  unfold colWidths
  rw [normalizeData_idem hne, maxCols_normalizeData hne]

theorem generateMarkdownTable_normalizeData {g : Grid} (hne : g ≠ []) :
    generateMarkdownTable (normalizeData g) = generateMarkdownTable g := by
  have h1 : (normalizeData g).isEmpty = false := by
    rcases h : normalizeData g with _ | ⟨r, t⟩
    · exact absurd h (normalizeData_ne_nil hne)
    · rfl
  have h2 : g.isEmpty = false := by
    cases g with
    | nil => cases hne rfl
    | cons r t => rfl
  unfold generateMarkdownTable
  rw [h1, h2, if_neg (by simp), if_neg (by simp)]
  rw [normalizeData_idem hne, colWidths_normalizeData hne]

theorem rows_nil_of_maxCols_zero {g : Grid} (h : maxCols g = 0) :
    ∀ r ∈ g, r = [] := by
  intro r hr
  have h2 := length_le_maxCols hr
  rw [h] at h2
  exact List.length_eq_zero.mp (Nat.le_zero.mp h2)

theorem colWidths_of_maxCols_zero {g : Grid} (h : maxCols g = 0) :
    colWidths g = [] := by
  unfold colWidths
  rw [h]
  have key : ∀ rows : Grid, (∀ r ∈ rows, r = []) →
      rows.foldl updWidths [] = [] := by
    intro rows
    induction rows with
    | nil => intro _; rfl
    | cons r t ih =>
      intro hall
      show t.foldl updWidths (updWidths [] r) = []
      rw [hall r (List.mem_cons_self _ _)]
      exact ih (fun x hx => hall x (List.mem_cons_of_mem _ hx))
  exact key _ (fun r hr => by
    have := normalizeData_row_length hr
    rw [h] at this
    exact List.length_eq_zero.mp this)

theorem format_maxCols_zero {g : Grid} (hne : g ≠ []) (hm : maxCols g = 0) :
    generateMarkdownTable g
      = joinSep ['\n'] (List.replicate (g.length + 1) (renderCells [])) := by
  have hrows := rows_nil_of_maxCols_zero hm
  have hnd : normalizeData g = g :=
    normalizeData_of_uniform hne (fun r hr => by rw [hrows r hr])
  have hcw : colWidths g = [] := colWidths_of_maxCols_zero hm
  cases g with
  | nil => cases hne rfl
  | cons r0 rest =>
    unfold generateMarkdownTable
    rw [show (r0 :: rest : Grid).isEmpty = false from rfl]
    rw [if_neg (by simp), hnd, hcw]
    show joinSep ['\n']
        (renderRow [] r0 :: renderSeparator [] :: rest.map (renderRow [])) = _
    rw [hrows r0 (List.mem_cons_self _ _)]
    have e3 : rest.map (renderRow [])
        = List.replicate rest.length (renderCells []) := by
      have : ∀ r ∈ rest, renderRow [] r = renderCells [] := by
        intro r hr
        rw [hrows r (List.mem_cons_of_mem _ hr)]
        rfl
      rw [List.map_congr_left this]
      exact List.map_const' rest _
    rw [e3]
    rw [show renderRow [] ([] : List Str) = renderCells [] from rfl]
    rw [show renderSeparator [] = renderCells [] from rfl]
    rw [show (([] : List Str) :: rest).length + 1 = rest.length + 1 + 1 from by simp]
    rw [List.replicate_succ, List.replicate_succ]

theorem colWidths_allEmptyCell (n : Nat) :
    colWidths (List.replicate (n + 1) ([[]] : List Str)) = [0] := by
  have huni : ∀ r ∈ List.replicate (n + 1) ([[]] : List Str), r.length = 1 := by
    intro r hr
    rw [List.eq_of_mem_replicate hr]
    rfl
  unfold colWidths
  rw [maxCols_of_uniform (by simp) huni]
  rw [normalizeData_of_uniform (by simp) huni]
  show (List.replicate (n + 1) ([[]] : List Str)).foldl updWidths [0] = [0]
  have key : ∀ m, (List.replicate m ([[]] : List Str)).foldl updWidths [0] = [0] := by
    intro m
    induction m with
    | zero => rfl
    | succ m ih =>
      rw [List.replicate_succ]
      show (List.replicate m ([[]] : List Str)).foldl updWidths
        (updWidths [0] [[]]) = [0]
      rw [show updWidths [0] ([[]] : List Str) = [0] from rfl]
      exact ih
  exact key (n + 1)

theorem format_allEmptyCell (n : Nat) :
    generateMarkdownTable (List.replicate (n + 1) ([[]] : List Str))
      = joinSep ['\n'] (List.replicate (n + 2) (renderCells [])) := by
  have huni : ∀ r ∈ List.replicate (n + 1) ([[]] : List Str), r.length = 1 := by
    intro r hr
    rw [List.eq_of_mem_replicate hr]
    rfl
  have hnd := normalizeData_of_uniform (by simp) huni
  unfold generateMarkdownTable
  rw [show (List.replicate (n + 1) ([[]] : List Str)).isEmpty = false from by simp]
  rw [if_neg (by simp), hnd, colWidths_allEmptyCell n]
  rw [List.replicate_succ]
  show joinSep ['\n'] (renderRow [0] [[]] :: renderSeparator [0]
      :: (List.replicate n ([[]] : List Str)).map (renderRow [0])) = _
  rw [List.map_replicate]
  rw [show renderRow [0] ([[]] : List Str) = renderCells [] from rfl]
  rw [show renderSeparator [0] = renderCells [] from rfl]
  rw [show n + 2 = (n + 1) + 1 from rfl]
  rw [List.replicate_succ, List.replicate_succ]

theorem parseAll_empty_lines (m : Nat) :
    parseAll (List.replicate m (renderCells [])) = List.replicate m [[]] := by
  induction m with
  | zero => rfl
  | succ m ih =>
    rw [List.replicate_succ, List.replicate_succ]
    rw [parseAll]
    rw [show parseLine (trim (renderCells [])) = [[]] from by decide]
    rw [if_neg (by simp)]
    rw [ih]

theorem parse_join_empty_lines (m : Nat) :
    parseMarkdownTable (joinSep ['\n'] (List.replicate (m + 2) (renderCells [])))
      = List.replicate (m + 1) [[]] := by
  rw [parseMarkdownTable]
  rw [structuralLines_joinSep (by simp)
    (fun l hl => by rw [List.eq_of_mem_replicate hl]; exact ⟨by decide, by decide, by decide⟩)]
  rw [show m + 2 = (m + 1) + 1 from rfl, List.replicate_succ, List.replicate_succ]
  rw [parseRowsFrom]
  rw [show ((0 == 1 : Bool)
      && isSeparatorRow (trim (renderCells []))) = false from by decide]
  rw [if_neg (by simp)]
  rw [show parseLine (trim (renderCells [])) = [[]] from by decide]
  rw [if_neg (by simp)]
  rw [parseRowsFrom]
  rw [show ((1 == 1 : Bool)
      && isSeparatorRow (trim (renderCells []))) = true from by decide]
  rw [if_pos rfl]
  rw [parseRowsFrom_ge_two _ 2 (Nat.le_refl 2)]
  rw [parseAll_empty_lines m]
  rw [List.replicate_succ]

/-! ### Claim C2: idempotence of formatting -/

/-- Claim C2, counterexample to the claim as stated ("for every Grid"):
formatting, parsing back and formatting again is not byte-identical when a
cell carries surrounding whitespace (it is trimmed away), contains a pipe
(it is split in two) or contains a line break (the row is torn apart). -/
theorem c2_counterexample :
    generateMarkdownTable (parseMarkdownTable (generateMarkdownTable [[strL (" a ")]]))
        ≠ generateMarkdownTable [[strL (" a ")]]
    ∧ generateMarkdownTable (parseMarkdownTable (generateMarkdownTable [[strL ("a|b")]]))
        ≠ generateMarkdownTable [[strL ("a|b")]]
    ∧ generateMarkdownTable (parseMarkdownTable (generateMarkdownTable [[strL ("a\nb")]]))
        ≠ generateMarkdownTable [[strL ("a\nb")]] := by
  refine ⟨by decide, by decide, by decide⟩

/-- Claim C2 (amended): for every Grid whose cells carry no surrounding
whitespace and contain no pipe and no line-break characters, formatting,
parsing the result back, and formatting the parsed Grid is byte-identical
to the first formatting. -/
theorem c2_idempotent (g : Grid)
    (h : ∀ r ∈ g, ∀ c ∈ r, trim c = c ∧ '|' ∉ c ∧ '\n' ∉ c) :
    generateMarkdownTable (parseMarkdownTable (generateMarkdownTable g))
      = generateMarkdownTable g := by
  cases g with
  | nil => rfl
  | cons r0 rest =>
    by_cases hm : maxCols (r0 :: rest) = 0
    · rw [format_maxCols_zero (by simp) hm]
      rw [show (r0 :: rest : Grid).length + 1 = rest.length + 2 from by simp]
      rw [parse_join_empty_lines rest.length]
      rw [format_allEmptyCell rest.length]
    · have hw : 1 ≤ maxCols (r0 :: rest) := Nat.one_le_iff_ne_zero.mpr hm
      have hclean : ∀ r ∈ (r0 :: rest : Grid), ∀ c ∈ r, '|' ∉ c ∧ '\n' ∉ c :=
        fun r hr c hc => ⟨(h r hr c hc).2.1, (h r hr c hc).2.2⟩
      rw [roundTrip_core _ (by simp) hw hclean]
      rw [map_trim_normalizeData (fun r hr c hc => (h r hr c hc).1)]
      exact generateMarkdownTable_normalizeData (by simp)

/-- Claim C2, witness: the amended idempotence theorem applied to the
concrete ragged grid `[["a", "bb"], ["c"]]`. -/
theorem c2_idempotent_witness :
    generateMarkdownTable (parseMarkdownTable
        (generateMarkdownTable [[strL ("a"), strL ("bb")], [strL ("c")]]))
      = generateMarkdownTable [[strL ("a"), strL ("bb")], [strL ("c")]] :=
  c2_idempotent [[strL ("a"), strL ("bb")], [strL ("c")]] (by decide)

/-! ### Claim C3: padding correctness -/

theorem updWidths_getD :
    ∀ (ws : List Nat) (cs : List Str) (i : Nat), i < ws.length →
      (updWidths ws cs).getD i 0
        = Nat.max (ws.getD i 0) ((cs.getD i []).length) := by
  intro ws
  induction ws with
  | nil =>
    intro cs i h
    simp at h
  | cons w ws' ih =>
    intro cs i h
    cases cs with
    | nil =>
      show (w :: ws').getD i 0
        = Nat.max ((w :: ws').getD i 0) (([] : List Str).getD i []).length
      rw [show (([] : List Str).getD i []) = [] from by cases i <;> rfl]
      simp
    | cons c cs' =>
      cases i with
      | zero => rfl
      | succ j =>
        show (updWidths ws' cs').getD j 0 = _
        rw [ih cs' j (by simpa using h)]
        rfl

theorem foldl_updWidths_getD (i : Nat) :
    ∀ (rows : Grid) (ws : List Nat), (∀ r ∈ rows, r.length ≤ ws.length) →
      i < ws.length →
      (rows.foldl updWidths ws).getD i 0
        = (rows.map (fun r => (r.getD i []).length)).foldl Nat.max (ws.getD i 0) := by
  intro rows
  induction rows with
  | nil => intro ws _ _; rfl
  | cons r rows' ih =>
    intro ws hall hi
    show (rows'.foldl updWidths (updWidths ws r)).getD i 0 = _
    have hlen : (updWidths ws r).length = ws.length :=
      updWidths_length ws r (hall r (List.mem_cons_self _ _))
    rw [ih (updWidths ws r)
      (fun x hx => by rw [hlen]; exact hall x (List.mem_cons_of_mem _ hx))
      (by rw [hlen]; exact hi)]
    rw [updWidths_getD ws r i hi]
    rfl

theorem padRow_getD :
    ∀ (row : List Str) (ws : List Nat) (i : Nat), i < row.length →
      row.length = ws.length →
      (padRow ws row).getD i [] = padEnd (row.getD i []) (ws.getD i 0) := by
  intro row
  induction row with
  | nil =>
    intro ws i h _
    simp at h
  | cons c row' ih =>
    intro ws i h hlen
    cases ws with
    | nil => simp at hlen
    | cons w ws' =>
      cases i with
      | zero => rfl
      | succ j =>
        show (padRow ws' row').getD j [] = _
        exact ih ws' j (by simpa using h) (by simpa using hlen)

theorem padEnd_length (s : Str) (w : Nat) :
    (padEnd s w).length = Nat.max s.length w := by
  unfold padEnd
  rw [List.length_append, List.length_replicate]
  rcases Nat.le_total s.length w with h | h
  · have h2 : Nat.max s.length w = w := Nat.max_eq_right h
    rw [h2]
    omega
  · have h2 : Nat.max s.length w = s.length := Nat.max_eq_left h
    rw [h2]
    omega

/-- Claim C3: for every nonempty Grid and every in-range column index, the
computed column width equals the maximum cell string length in that column
over all normalized rows (header included, ragged rows padded with empty
cells), every padded cell of that column has exactly that width, and the
separator row's dash run for that column has exactly that same length. -/
theorem c3_padding (g : Grid) (i : Nat) (hi : i < maxCols g) :
    (colWidths g).getD i 0
      = ((normalizeData g).map (fun r => (r.getD i []).length)).foldl Nat.max 0
    ∧ (∀ r ∈ normalizeData g,
        ((padRow (colWidths g) r).getD i []).length = (colWidths g).getD i 0)
    ∧ (((colWidths g).map (fun w => List.replicate w '-')).getD i []).length
        = (colWidths g).getD i 0 := by
  have hcl : (colWidths g).length = maxCols g := colWidths_length g
  have hW : (colWidths g).getD i 0
      = ((normalizeData g).map (fun r => (r.getD i []).length)).foldl Nat.max 0 := by
    unfold colWidths
    rw [foldl_updWidths_getD i (normalizeData g) _
      (fun r hr => by
        rw [List.length_replicate]
        exact Nat.le_of_eq (normalizeData_row_length hr))
      (by rw [List.length_replicate]; exact hi)]
    congr 1
    rw [List.getD_eq_getElem?_getD, List.getElem?_replicate, if_pos hi]
    rfl
  refine ⟨hW, ?_, ?_⟩
  · intro r hr
    have hrl : r.length = maxCols g := normalizeData_row_length hr
    rw [padRow_getD r (colWidths g) i (by rw [hrl]; exact hi) (by rw [hrl, hcl])]
    rw [padEnd_length]
    apply Nat.max_eq_right
    rw [hW]
    exact le_foldl_max _ _ 0
      (List.mem_map_of_mem (fun r => (r.getD i []).length) hr)
  · rw [List.getD_eq_getElem?_getD, List.getElem?_map,
      List.getElem?_eq_getElem (by rw [hcl]; exact hi)]
    rw [List.getD_eq_getElem?_getD, List.getElem?_eq_getElem (by rw [hcl]; exact hi)]
    simp

/-- Claim C3, witness: the padding theorem applied to the ragged grid
`[["ab"], ["c", "dddd"]]` at column index 1. -/
theorem c3_padding_witness :
    (colWidths [[strL ("ab")], [strL ("c"), strL ("dddd")]]).getD 1 0
      = ((normalizeData [[strL ("ab")], [strL ("c"), strL ("dddd")]]).map
          (fun r => (r.getD 1 []).length)).foldl Nat.max 0
    ∧ (∀ r ∈ normalizeData [[strL ("ab")], [strL ("c"), strL ("dddd")]],
        ((padRow (colWidths [[strL ("ab")], [strL ("c"), strL ("dddd")]]) r).getD 1 []).length
          = (colWidths [[strL ("ab")], [strL ("c"), strL ("dddd")]]).getD 1 0)
    ∧ (((colWidths [[strL ("ab")], [strL ("c"), strL ("dddd")]]).map
          (fun w => List.replicate w '-')).getD 1 []).length
        = (colWidths [[strL ("ab")], [strL ("c"), strL ("dddd")]]).getD 1 0 :=
  c3_padding [[strL ("ab")], [strL ("c"), strL ("dddd")]] 1 (by decide)

/-! ### Claim C4: sort by first column -/

theorem lexLe_refl (s : Str) : lexLe s s = true := by
  induction s with
  | nil => rfl
  | cons a as ih =>
    unfold lexLe
    rw [if_neg (lt_irrefl a), if_neg (lt_irrefl a)]
    exact ih

theorem lexLe_total' : ∀ a b : Str, (lexLe a b || lexLe b a) = true := by
  intro a
  induction a with
  | nil => intro b; rfl
  | cons x as ih =>
    intro b
    cases b with
    | nil => rfl
    | cons y bs =>
      rcases lt_trichotomy x y with h | h | h
      · simp [lexLe, h, lt_asymm h]
      · subst h
        simp only [lexLe, if_neg (lt_irrefl x)]
        exact ih bs
      · simp [lexLe, h, lt_asymm h]

theorem lexLe_trans' :
    ∀ a b c : Str, lexLe a b = true → lexLe b c = true → lexLe a c = true := by
  intro a
  induction a with
  | nil => intro b c _ _; rfl
  | cons x as ih =>
    intro b c h1 h2
    cases b with
    | nil => simp [lexLe] at h1
    | cons y bs =>
      cases c with
      | nil => simp [lexLe] at h2
      | cons z cs =>
        rcases lt_trichotomy x y with hxy | hxy | hxy
        · rcases lt_trichotomy y z with hyz | hyz | hyz
          · simp [lexLe, lt_trans hxy hyz]
          · subst hyz
            simp [lexLe, hxy]
          · rw [lexLe, if_neg (asymm hyz), if_pos hyz] at h2
            cases h2
        · subst hxy
          rcases lt_trichotomy x z with hxz | hxz | hxz
          · simp [lexLe, hxz]
          · subst hxz
            rw [lexLe, if_neg (lt_irrefl x), if_neg (lt_irrefl x)] at h1 h2 ⊢
            exact ih bs cs h1 h2
          · rw [lexLe, if_neg (asymm hxz), if_pos hxz] at h2
            cases h2
        · rw [lexLe, if_neg (asymm hxy), if_pos hxy] at h1
          cases h1

theorem rowLe_trans (asc : Bool) (a b c : List Str) :
    rowLe asc a b = true → rowLe asc b c = true → rowLe asc a c = true := by
  cases asc with
  | false =>
    show lexLe (sortKey b) (sortKey a) = true →
      lexLe (sortKey c) (sortKey b) = true → lexLe (sortKey c) (sortKey a) = true
    intro h1 h2
    exact lexLe_trans' _ _ _ h2 h1
  | true =>
    show lexLe (sortKey a) (sortKey b) = true →
      lexLe (sortKey b) (sortKey c) = true → lexLe (sortKey a) (sortKey c) = true
    intro h1 h2
    exact lexLe_trans' _ _ _ h1 h2

theorem rowLe_total (asc : Bool) (a b : List Str) :
    (rowLe asc a b || rowLe asc b a) = true := by
  cases asc with
  | false =>
    show (lexLe (sortKey b) (sortKey a) || lexLe (sortKey a) (sortKey b)) = true
    exact lexLe_total' _ _
  | true =>
    show (lexLe (sortKey a) (sortKey b) || lexLe (sortKey b) (sortKey a)) = true
    exact lexLe_total' _ _

theorem rowLe_of_key_eq {asc : Bool} {a b : List Str}
    (h : sortKey a = sortKey b) : rowLe asc a b = true := by
  cases asc with
  | false =>
    show lexLe (sortKey b) (sortKey a) = true
    rw [h]
    exact lexLe_refl _
  | true =>
    show lexLe (sortKey a) (sortKey b) = true
    rw [h]
    exact lexLe_refl _

/-- Claim C4: for every Grid with more than one row, the sort keeps row 0
(the header) in place and returns the data rows sorted stably by the
case-folded, trimmed first cell: the result is a permutation of the data
rows, consecutive rows are ordered by the requested comparator (ascending
or descending), and the rows of any fixed key keep their original relative
order (the filter by that key is unchanged).  The locale-aware
`localeCompare` is modelled as code-point lexicographic comparison
(`lexLe`). -/
theorem c4_sort (g : Grid) (asc : Bool) (h : 1 < g.length) :
    ∃ sorted,
      sortTable g asc = some (g.headD [] :: sorted)
      ∧ sorted.Perm g.tail
      ∧ sorted.Pairwise (fun a b => rowLe asc a b = true)
      ∧ ∀ k : Str, sorted.filter (fun r => sortKey r == k)
          = g.tail.filter (fun r => sortKey r == k) := by
  refine ⟨g.tail.mergeSort (rowLe asc), ?_, ?_, ?_, ?_⟩
  · unfold sortTable
    rw [if_neg (by omega)]
  · exact List.mergeSort_perm g.tail (rowLe asc)
  · exact List.sorted_mergeSort (fun a b c => rowLe_trans asc a b c)
      (fun a b => rowLe_total asc a b) g.tail
  · intro k
    have s1 : List.Sublist (g.tail.filter fun r => sortKey r == k) g.tail :=
      List.filter_sublist g.tail
    have s2 : (g.tail.filter fun r => sortKey r == k).Pairwise
        (fun a b => rowLe asc a b = true) := by
      apply List.pairwise_of_forall_mem_list
      intro a ha b hb
      have ka : sortKey a = k := eq_of_beq (List.mem_filter.mp ha).2
      have kb : sortKey b = k := eq_of_beq (List.mem_filter.mp hb).2
      exact rowLe_of_key_eq (by rw [ka, kb])
    have s3 := List.sublist_mergeSort (fun a b c => rowLe_trans asc a b c)
      (fun a b => rowLe_total asc a b) s2 s1
    have s4 : ((g.tail.mergeSort (rowLe asc)).filter (fun r => sortKey r == k)).Perm
        (g.tail.filter (fun r => sortKey r == k)) :=
      (List.mergeSort_perm g.tail (rowLe asc)).filter _
    have s6 := s3.filter (fun r => sortKey r == k)
    rw [List.filter_filter] at s6
    have s5 : (g.tail.filter fun r =>
          (sortKey r == k) && (sortKey r == k))
        = g.tail.filter fun r => sortKey r == k := by
      apply List.filter_congr
      intro x _
      rw [Bool.and_self]
    rw [s5] at s6
    exact (s6.eq_of_length s4.length_eq.symm).symm

/-- Claim C4, witness: the sort theorem applied to the concrete grid
`[["h"], ["b"], ["a"]]`, ascending. -/
theorem c4_sort_witness :
    ∃ sorted,
      sortTable [[strL ("h")], [strL ("b")], [strL ("a")]] true
        = some (([[strL ("h")], [strL ("b")], [strL ("a")]] : Grid).headD [] :: sorted)
      ∧ sorted.Perm ([[strL ("h")], [strL ("b")], [strL ("a")]] : Grid).tail
      ∧ sorted.Pairwise (fun a b => rowLe true a b = true)
      ∧ ∀ k : Str, sorted.filter (fun r => sortKey r == k)
          = (([[strL ("h")], [strL ("b")], [strL ("a")]] : Grid)).tail.filter
              (fun r => sortKey r == k) :=
  c4_sort [[strL ("h")], [strL ("b")], [strL ("a")]] true (by decide)

/-! ### Claim C5: separator-row handling -/

/-- Claim C5, counterexample to the claim as stated: a line matching the
separator pattern is only discarded at structural position 1; here the
first line `"| - |"` matches the separator pattern yet is parsed into the
row `["-"]` of the resulting Grid. -/
theorem c5_counterexample :
    isSeparatorRow (trim (strL ("| - |"))) = true
    ∧ parseMarkdownTable (strL ("| - |\n| a |"))
        = [[strL ("-")], [strL ("a")]] := by
  refine ⟨by decide, by decide⟩

theorem parseRowsFrom_one (l1 : Str) (rest : List Str) :
    parseRowsFrom 1 (l1 :: rest)
      = if isSeparatorRow (trim l1) then parseAll rest
        else parseAll (l1 :: rest) := by
  cases hsep : isSeparatorRow (trim l1) with
  | true =>
    rw [if_pos rfl, parseRowsFrom, hsep]
    rw [show ((1 == 1 : Bool) && true) = true from rfl, if_pos rfl]
    exact parseRowsFrom_ge_two rest 2 (Nat.le_refl 2)
  | false =>
    rw [if_neg (by simp), parseRowsFrom, hsep, parseAll]
    rw [show ((1 == 1 : Bool) && false) = false from rfl, if_neg (by simp)]
    rw [parseRowsFrom_ge_two rest 2 (Nat.le_refl 2)]

/-- Claim C5 (amended): the separator check removes exactly one candidate
line, the one at structural position 1 (the second retained line): parsing
any text equals applying the plain per-line cell extraction (`parseAll`)
to the structural lines with the second line removed when (and only when)
it matches the separator pattern; separator-pattern lines at any other
position are parsed as ordinary rows. -/
theorem c5_separator (text : Str) :
    parseMarkdownTable text
      = parseAll (dropStructuralSeparator (structuralLines text)) := by
  rw [parseMarkdownTable]
  generalize structuralLines text = ls
  cases ls with
  | nil => rfl
  | cons l0 rest =>
    cases rest with
    | nil => rfl
    | cons l1 rest' =>
      rw [parseRowsFrom]
      rw [show ((0 == 1 : Bool) && isSeparatorRow (trim l0)) = false from rfl]
      rw [if_neg (by simp)]
      rw [parseRowsFrom_one l1 rest']
      rw [show dropStructuralSeparator (l0 :: l1 :: rest')
        = if isSeparatorRow (trim l1) then l0 :: rest' else l0 :: l1 :: rest' from rfl]
      cases hsep : isSeparatorRow (trim l1) with
      | true =>
        rw [if_pos rfl, if_pos rfl]
        exact rfl
      | false =>
        simp only [Bool.false_eq_true, if_false]
        exact rfl

/-! ### Claim C6: pipe stripping on a retained line -/

theorem joinSep_append_last (s : Str) :
    ∀ (init : List Str), init ≠ [] → ∀ cl : Str,
      joinSep s (init ++ [cl]) = joinSep s init ++ s ++ cl := by
  intro init
  induction init with
  | nil => intro h; cases h rfl
  | cons x t ih =>
    intro _ cl
    cases t with
    | nil => rfl
    | cons y t' =>
      show joinSep s (x :: ((y :: t') ++ [cl])) = _
      rw [show (y :: t') ++ [cl] = y :: (t' ++ [cl]) from rfl]
      rw [joinSep_cons₂, joinSep_cons₂]
      rw [show y :: (t' ++ [cl]) = (y :: t') ++ [cl] from rfl]
      rw [ih (by simp) cl]
      simp

theorem specHead_iff {line : Str} (hne : line ≠ []) (ht : trim line = line) :
    line.headD ' ' = '|'
      ↔ ((splitOnChar '|' line).map trim).headD [] = [] := by
  rcases hcs : splitOnChar '|' line with _ | ⟨c0, rest⟩
  · exact absurd hcs (splitOnChar_ne_nil '|' line)
  · have hline : joinSep ['|'] (c0 :: rest) = line := by
      rw [← hcs]
      exact joinSep_splitOnChar '|' line
    cases c0 with
    | nil =>
      cases rest with
      | nil =>
        exfalso
        apply hne
        rw [← hline]
        rfl
      | cons r t =>
        constructor
        · intro _
          rfl
        · intro _
          rw [← hline, joinSep_cons₂]
          rfl
    | cons c c0' =>
      have hcfree : '|' ∉ (c :: c0') :=
        not_mem_of_mem_splitOnChar (hcs ▸ List.mem_cons_self _ _)
      have hcline : line = c :: joinSep ['|'] (c0' :: rest) := by
        rw [← hline, joinSep_cons_cons]
      have ht2 : trim (c :: joinSep ['|'] (c0' :: rest))
          = c :: joinSep ['|'] (c0' :: rest) := by
        rw [← hcline]
        exact ht
      have hcnw : isWS c = false := head_not_ws_of_trimmed ht2
      constructor
      · intro h
        exfalso
        rw [hcline] at h
        have hc : c = '|' := h
        exact hcfree (hc ▸ List.mem_cons_self c c0')
      · intro h
        exfalso
        have h2 : trim (c :: c0') ≠ [] :=
          trim_ne_nil_of_mem (List.mem_cons_self c c0') hcnw
        exact h2 h

theorem specLast_iff {line : Str} (hne : line ≠ []) (ht : trim line = line) :
    line.getLast?.getD ' ' = '|'
      ↔ (((splitOnChar '|' line).map trim).getLast?.getD []) = [] := by
  rcases List.eq_nil_or_concat' (splitOnChar '|' line) with h | ⟨init, cl, hcs⟩
  · exact absurd h (splitOnChar_ne_nil '|' line)
  · have hline : joinSep ['|'] (init ++ [cl]) = line := by
      rw [← hcs]
      exact joinSep_splitOnChar '|' line
    have hclmem : cl ∈ splitOnChar '|' line := by
      rw [hcs]
      simp
    have hclfree : '|' ∉ cl := not_mem_of_mem_splitOnChar hclmem
    have hE : (((splitOnChar '|' line).map trim).getLast?.getD []) = trim cl := by
      rw [hcs, List.map_append]
      rw [show (List.map trim [cl]) = [trim cl] from rfl]
      rw [List.getLast?_concat]
      rfl
    rw [hE]
    cases init with
    | nil =>
      have hlc : line = cl := by
        rw [← hline]
        rfl
      rcases List.eq_nil_or_concat' cl with hcl | ⟨cl', d, hcl⟩
      · exfalso
        apply hne
        rw [hlc, hcl]
      · have hd : d ∈ cl := by
          rw [hcl]
          simp
        have hdp : d ≠ '|' := fun he => hclfree (he ▸ hd)
        have hgl : line.getLast? = some d := by
          rw [hlc, hcl]
          exact List.getLast?_concat _
        have hdnw : isWS d = false := by
          apply last_not_ws_of_trimmed (t := cl')
          rw [← hcl, ← hlc]
          exact ht
        constructor
        · intro h
          exfalso
          rw [hgl] at h
          exact hdp h
        · intro h
          exfalso
          exact trim_ne_nil_of_mem hd hdnw h
    | cons i0 init' =>
      have hJ : line = joinSep ['|'] (i0 :: init') ++ ['|'] ++ cl := by
        rw [← hline]
        exact joinSep_append_last ['|'] (i0 :: init') (by simp) cl
      rcases List.eq_nil_or_concat' cl with hcl | ⟨cl', d, hcl⟩
      · subst hcl
        have hgl : line.getLast? = some '|' := by
          rw [hJ]
          rw [List.append_nil]
          exact List.getLast?_concat _
        constructor
        · intro _
          rfl
        · intro _
          rw [hgl]
          rfl
      · have hd : d ∈ cl := by
          rw [hcl]
          simp
        have hdp : d ≠ '|' := fun he => hclfree (he ▸ hd)
        have hline2 : line = (joinSep ['|'] (i0 :: init') ++ ['|'] ++ cl') ++ [d] := by
          rw [hJ, hcl]
          simp
        have hgl : line.getLast? = some d := by
          rw [hline2]
          exact List.getLast?_concat _
        have hdnw : isWS d = false := by
          apply last_not_ws_of_trimmed (t := joinSep ['|'] (i0 :: init') ++ ['|'] ++ cl')
          rw [← hline2]
          exact ht
        constructor
        · intro h
          exfalso
          rw [hgl] at h
          exact hdp h
        · intro h
          exfalso
          exact trim_ne_nil_of_mem hd hdnw h

theorem filterCells_one (e0 : Str) :
    filterCells 1 0 [e0] = if e0.isEmpty then [] else [e0] := by
  rw [filterCells]
  have hk : keepCell 1 0 e0 = !e0.isEmpty := by
    unfold keepCell
    cases e0.isEmpty <;> rfl
  rw [hk]
  cases h : e0.isEmpty <;> simp [filterCells]

theorem filterCells_full (e0 el : Str) (mid : List Str) :
    filterCells (mid.length + 2) 0 (e0 :: (mid ++ [el]))
      = (if e0.isEmpty then [] else [e0])
        ++ (mid ++ if el.isEmpty then [] else [el]) := by
  rw [filterCells]
  have hk : keepCell (mid.length + 2) 0 e0 = !e0.isEmpty := by
    unfold keepCell
    have e1 : ((0 : Nat) == mid.length + 2 - 1) = false := by
      rw [beq_eq_false_iff_ne]
      omega
    rw [e1]
    cases e0.isEmpty <;> rfl
  rw [hk]
  rw [filterCells_tail el mid 1 (mid.length + 2) (Nat.le_refl 1) (by omega)]
  cases h : e0.isEmpty <;> simp

theorem dropLeadingEmpty_pos {line : Str} (h : line.headD ' ' = '|')
    (rest : List Str) : dropLeadingEmpty line ([] :: rest) = rest := by
  unfold dropLeadingEmpty
  rw [if_pos h]

theorem dropLeadingEmpty_neg {line : Str} (h : ¬ line.headD ' ' = '|')
    (cells : List Str) : dropLeadingEmpty line cells = cells := by
  unfold dropLeadingEmpty
  rw [if_neg h]

theorem dropTrailingEmpty_pos {line : Str} (h : line.getLast?.getD ' ' = '|')
    (cells : List Str) (hlast : cells.getLast? = some []) :
    dropTrailingEmpty line cells = cells.dropLast := by
  unfold dropTrailingEmpty
  rw [if_pos h, hlast]

theorem dropTrailingEmpty_neg {line : Str} (h : ¬ line.getLast?.getD ' ' = '|')
    (cells : List Str) : dropTrailingEmpty line cells = cells := by
  unfold dropTrailingEmpty
  rw [if_neg h]

theorem dropTrailingEmpty_ne {line : Str} (cells : List Str) {d : Char}
    {dl : Str} (hlast : cells.getLast? = some (d :: dl)) :
    dropTrailingEmpty line cells = cells := by
  unfold dropTrailingEmpty
  rw [hlast]
  exact ite_self cells

/-- Claim C6's central equivalence: on the lines the parser retains
(nonempty after trimming, already trimmed), the implemented cell filter
agrees with the specification's description: split on pipes and trim, then
drop a leading empty cell exactly when the line starts with a pipe and a
trailing empty cell exactly when the line ends with a pipe. -/
theorem parseLine_eq_specParseLine {line : Str} (ht : trim line = line)
    (hne : line ≠ []) : parseLine line = specParseLine line := by
  rcases hcs : splitOnChar '|' line with _ | ⟨c0, rest⟩
  · exact absurd hcs (splitOnChar_ne_nil '|' line)
  · cases rest with
    | nil =>
      have hlc : line = c0 := by
        rw [← joinSep_splitOnChar '|' line, hcs]
        rfl
      have he0 : trim c0 = c0 := by
        rw [← hlc]
        exact ht
      have hc0ne : c0 ≠ [] := by
        rw [← hlc]
        exact hne
      have hie : c0.isEmpty = false := by
        cases c0 with
        | nil => cases hc0ne rfl
        | cons a t => rfl
      have hnp : ¬ line.headD ' ' = '|' := by
        intro h
        have h2 := (specHead_iff hne ht).mp h
        rw [hcs] at h2
        have h3 : trim c0 = [] := h2
        rw [he0] at h3
        exact hc0ne h3
      have hnq : ¬ line.getLast?.getD ' ' = '|' := by
        intro h
        have h2 := (specLast_iff hne ht).mp h
        rw [hcs] at h2
        have h3 : trim c0 = [] := h2
        rw [he0] at h3
        exact hc0ne h3
      rw [parseLine, hcs]
      rw [show (List.map trim [c0]) = [trim c0] from rfl, he0]
      rw [show ([c0] : List Str).length = 1 from rfl]
      rw [filterCells_one c0, hie]
      rw [specParseLine, hcs]
      rw [show (List.map trim [c0]) = [trim c0] from rfl, he0]
      rw [dropLeadingEmpty_neg hnp, dropTrailingEmpty_neg hnq]
      rw [if_neg (by simp)]
    | cons r1 rrest =>
      rcases List.eq_nil_or_concat' ((r1 :: rrest).map trim) with hmt | ⟨mid, el, hmt⟩
      · simp at hmt
      · have hE : (splitOnChar '|' line).map trim = trim c0 :: (mid ++ [el]) := by
          rw [hcs]
          rw [show (List.map trim (c0 :: r1 :: rrest))
            = trim c0 :: (r1 :: rrest).map trim from rfl]
          rw [hmt]
        have hlenE : ((splitOnChar '|' line).map trim).length = mid.length + 2 := by
          rw [hE]
          simp
        have hheadE : ((splitOnChar '|' line).map trim).headD [] = trim c0 := by
          rw [hE]
          rfl
        have hlastE : ((splitOnChar '|' line).map trim).getLast?.getD [] = el := by
          rw [hE]
          rw [show trim c0 :: (mid ++ [el]) = (trim c0 :: mid) ++ [el] from rfl]
          rw [List.getLast?_concat]
          rfl
        rw [parseLine, hlenE, hE, filterCells_full]
        rw [specParseLine, hE]
        by_cases hp : line.headD ' ' = '|'
        · have he0 : trim c0 = [] := by
            rw [← hheadE]
            exact (specHead_iff hne ht).mp hp
          rw [he0]
          rw [dropLeadingEmpty_pos hp]
          rw [show (([] : Str).isEmpty) = true from rfl, if_pos rfl]
          by_cases hq : line.getLast?.getD ' ' = '|'
          · have hel : el = [] := by
              rw [← hlastE]
              exact (specLast_iff hne ht).mp hq
            subst hel
            rw [dropTrailingEmpty_pos hq (mid ++ [[]]) (List.getLast?_concat _)]
            rw [show (([] : Str).isEmpty) = true from rfl, if_pos rfl]
            rw [List.dropLast_concat]
            simp
          · have hel : el ≠ [] := by
              intro h
              apply hq
              apply (specLast_iff hne ht).mpr
              rw [hlastE]
              exact h
            have hie : el.isEmpty = false := by
              cases el with
              | nil => cases hel rfl
              | cons a t => rfl
            rw [hie, if_neg (by simp)]
            rw [dropTrailingEmpty_neg hq]
            simp
        · have he0 : trim c0 ≠ [] := by
            intro h
            apply hp
            apply (specHead_iff hne ht).mpr
            rw [hheadE]
            exact h
          have hie0 : (trim c0).isEmpty = false := by
            rcases h : trim c0 with _ | ⟨a, t⟩
            · exact absurd h he0
            · rfl
          rw [hie0, if_neg (by simp)]
          rw [dropLeadingEmpty_neg hp]
          by_cases hq : line.getLast?.getD ' ' = '|'
          · have hel : el = [] := by
              rw [← hlastE]
              exact (specLast_iff hne ht).mp hq
            subst hel
            rw [dropTrailingEmpty_pos hq (trim c0 :: (mid ++ [[]]))
              (by rw [show trim c0 :: (mid ++ [[]]) = (trim c0 :: mid) ++ [[]] from rfl]
                  exact List.getLast?_concat _)]
            rw [show (([] : Str).isEmpty) = true from rfl, if_pos rfl]
            rw [show trim c0 :: (mid ++ [[]]) = (trim c0 :: mid) ++ [[]] from rfl]
            rw [List.dropLast_concat]
            simp
          · have hel : el ≠ [] := by
              intro h
              apply hq
              apply (specLast_iff hne ht).mpr
              rw [hlastE]
              exact h
            rcases h : el with _ | ⟨d, dl⟩
            · exact absurd h hel
            · rw [dropTrailingEmpty_ne (trim c0 :: (mid ++ [d :: dl]))
                (by rw [show trim c0 :: (mid ++ [d :: dl])
                      = (trim c0 :: mid) ++ [d :: dl] from rfl]
                    exact List.getLast?_concat _)]
              rw [show ((d :: dl : Str).isEmpty) = false from rfl]
              rw [if_neg (by simp)]
              simp

/-- Claim C6: for every line the parser retains (trimmed, nonempty), the
cells are the pipe-split, trimmed segments with a leading empty cell
dropped exactly when the trimmed line starts with a pipe and a trailing
empty cell dropped exactly when it ends with a pipe (`specParseLine`,
modelled from the spec's wording); in particular `"| a | b |"` and
`"a | b"` both parse to `["a", "b"]`. -/
theorem c6_pipe_stripping :
    (∀ line : Str, trim line = line → line ≠ [] →
      parseLine line = specParseLine line)
    ∧ parseLine (strL ("| a | b |")) = [strL ("a"), strL ("b")]
    ∧ parseLine (strL ("a | b")) = [strL ("a"), strL ("b")] :=
  ⟨fun _ ht hne => parseLine_eq_specParseLine ht hne, by decide, by decide⟩

/-- Claim C6, witness: the equivalence applied to the concrete retained
line `"|x| |"`. -/
theorem c6_pipe_stripping_witness :
    parseLine (strL ("|x| |")) = specParseLine (strL ("|x| |")) :=
  c6_pipe_stripping.1 (strL ("|x| |")) (by decide) (by decide)

/-! ### Claim C7: remove-last-row / remove-last-column invariants -/

/-- Claim C7, counterexample: on the ragged grid `[["a","b"],["c"]]` the
remove-last-column operation acts (row 0 has two columns) and pops the only
cell of row 1, leaving that row with zero columns, so "at least one column
always survives in every row" fails as stated. -/
theorem c7_counterexample :
    removeLastColumn [[strL ("a"), strL ("b")], [strL ("c")]]
        = [[strL ("a")], []]
    ∧ [] ∈ removeLastColumn [[strL ("a"), strL ("b")], [strL ("c")]] := by
  refine ⟨by decide, by decide⟩

/-- Claim C7 (amended): removing the last row from a one-row Grid is a
no-op; removing the last column is a no-op unless the Grid is nonempty and
row 0 has more than one column; when it does act it removes the final cell
from every row, and at least one column survives in row 0 (a row with
fewer cells than row 0 can be left with zero cells). -/
theorem c7_invariants :
    (∀ row : List Str, removeLastRow [row] = [row])
    ∧ (∀ g : Grid, (g.headD []).length ≤ 1 → removeLastColumn g = g)
    ∧ (∀ g : Grid, g ≠ [] → 1 < (g.headD []).length →
        removeLastColumn g = g.map List.dropLast
        ∧ 1 ≤ ((removeLastColumn g).headD []).length) := by
  refine ⟨?_, ?_, ?_⟩
  · intro row
    rfl
  · intro g h
    cases g with
    | nil => rfl
    | cons r t =>
      simp only [List.headD_cons] at h
      have h2 : ¬ 1 < r.length := by omega
      unfold removeLastColumn
      simp [h2]
  · intro g hne hlen
    cases g with
    | nil => cases hne rfl
    | cons r t =>
      simp only [List.headD_cons] at hlen
      have he : removeLastColumn (r :: t) = (r :: t).map List.dropLast := by
        unfold removeLastColumn
        simp [hlen]
      refine ⟨he, ?_⟩
      rw [he]
      simp only [List.map_cons, List.headD_cons, List.length_dropLast]
      omega

/-- Claim C7, witness: the amended theorem's acting case applied to the
concrete grid `[["a", "b"], ["c", "d"]]`. -/
theorem c7_invariants_witness :
    removeLastColumn [[strL ("a"), strL ("b")], [strL ("c"), strL ("d")]]
        = [[strL ("a"), strL ("b")], [strL ("c"), strL ("d")]].map List.dropLast
    ∧ 1 ≤ ((removeLastColumn
        [[strL ("a"), strL ("b")], [strL ("c"), strL ("d")]]).headD []).length :=
  c7_invariants.2.2 [[strL ("a"), strL ("b")], [strL ("c"), strL ("d")]]
    (by decide) (by decide)

/-! ### Claim C8: sort with insufficient rows is a reported no-op -/

/-- Claim C8: with one or zero rows the sort produces no sorted result and
writes nothing back; the code shows the "Table has no data rows to sort"
message and returns, modelled as the `none` outcome of `sortTable`. -/
theorem c8_sort_noop (g : Grid) (asc : Bool) (h : g.length ≤ 1) :
    sortTable g asc = none := by
  unfold sortTable
  rw [if_pos h]

/-- Claim C8, witness: the no-op theorem applied to a one-row grid. -/
theorem c8_sort_noop_witness :
    sortTable [[strL ("a"), strL ("b")]] true = none :=
  c8_sort_noop [[strL ("a"), strL ("b")]] true (by decide)

/-! ### Claim C9: parsed rows are never empty -/

theorem parseRowsFrom_rows_ne_nil :
    ∀ (ls : List Str) (i : Nat) (r : List Str),
      r ∈ parseRowsFrom i ls → r ≠ [] := by
  intro ls
  induction ls with
  | nil =>
    intro i r h
    cases h
  | cons l ls' ih =>
    intro i r h
    rw [parseRowsFrom] at h
    by_cases h1 : ((i == 1) && isSeparatorRow (trim l)) = true
    · rw [if_pos h1] at h
      exact ih (i + 1) r h
    · rw [if_neg h1] at h
      by_cases h2 : (parseLine (trim l)).isEmpty = true
      · rw [if_pos h2] at h
        exact ih (i + 1) r h
      · rw [if_neg h2] at h
        rcases List.mem_cons.mp h with h' | h'
        · subst h'
          intro hx
          rw [hx] at h2
          exact h2 rfl
        · exact ih (i + 1) r h'

/-- Claim C9: every row of a Grid produced by the parser contains at least
one cell: lines whose cell list is empty after splitting, trimming and
outer-pipe filtering are never added. -/
theorem c9_rows_nonempty (text : Str) (r : List Str)
    (h : r ∈ parseMarkdownTable text) : r ≠ [] :=
  parseRowsFrom_rows_ne_nil _ 0 r h

/-- Claim C9, witness: applied to the row `["a"]` of the parse of
`"| a |"`. -/
theorem c9_rows_nonempty_witness : ([strL ("a")] : List Str) ≠ [] :=
  c9_rows_nonempty (strL ("| a |")) [strL ("a")] (by decide)

/-! ### Claim C10: table span locator bounds -/

theorem findTableStart_bounds (lines : List Str) :
    ∀ i : Nat, 0 ≤ findTableStart lines i
      ∧ findTableStart lines i ≤ (i : Int) + 1 := by
  intro i
  induction i with
  | zero =>
    rw [findTableStart]
    cases hb : isTableRow (lines.getD 0 []) with
    | false =>
      rw [show (!(false : Bool)) = true from rfl, if_pos rfl]
      constructor <;> omega
    | true =>
      rw [show (!(true : Bool)) = false from rfl, if_neg (by simp)]
      constructor <;> omega
  | succ i ih =>
    rw [findTableStart]
    cases hb : isTableRow (lines.getD (i + 1) []) with
    | false =>
      rw [show (!(false : Bool)) = true from rfl, if_pos rfl]
      constructor <;> omega
    | true =>
      rw [show (!(true : Bool)) = false from rfl, if_neg (by simp)]
      rcases ih with ⟨ih1, ih2⟩
      constructor <;> omega

theorem findTableStart_le (lines : List Str) :
    ∀ i : Nat, isTableRow (lines.getD i []) = true →
      findTableStart lines i ≤ (i : Int) := by
  intro i h
  cases i with
  | zero =>
    rw [findTableStart, h]
    rw [show (!(true : Bool)) = false from rfl, if_neg (by simp)]
    omega
  | succ i' =>
    rw [findTableStart, h]
    rw [show (!(true : Bool)) = false from rfl, if_neg (by simp)]
    have h2 := (findTableStart_bounds lines i').2
    omega

theorem findTableEnd_bounds (lines : List Str) :
    ∀ i : Nat, i ≤ lines.length →
      (i : Int) - 1 ≤ findTableEnd lines i
        ∧ findTableEnd lines i ≤ (lines.length : Int) - 1 := by
  intro i hi
  generalize hn : lines.length - i = n
  induction n generalizing i with
  | zero =>
    have he : i = lines.length := by omega
    subst he
    rw [findTableEnd]
    rw [if_neg (by omega)]
    constructor <;> omega
  | succ n ih =>
    have hlt : i < lines.length := by omega
    rw [findTableEnd, if_pos hlt]
    cases hb : isTableRow (lines.getD i []) with
    | false =>
      rw [show (!(false : Bool)) = true from rfl, if_pos rfl]
      constructor <;> omega
    | true =>
      rw [show (!(true : Bool)) = false from rfl, if_neg (by simp)]
      rcases ih (i + 1) (by omega) (by omega) with ⟨a, b⟩
      constructor <;> omega

theorem findTableEnd_ge (lines : List Str) (i : Nat) (hi : i < lines.length)
    (h : isTableRow (lines.getD i []) = true) :
    (i : Int) ≤ findTableEnd lines i := by
  rw [findTableEnd, if_pos hi, h]
  rw [show (!(true : Bool)) = false from rfl, if_neg (by simp)]
  have h2 := (findTableEnd_bounds lines (i + 1) (by omega)).1
  omega

/-- Claim C10: for an in-bounds line index whose line is table-like, the
span locator returns a start `s` and an end `e` with
`0 <= s <= index <= e <= lastLineIndex`, and neither scan ever returns
`-1`, so the caller's `-1` checks never reject a span. -/
theorem c10_span (lines : List Str) (i : Nat) (hi : i < lines.length)
    (ht : isTableRow (lines.getD i []) = true) :
    0 ≤ findTableStart lines i
    ∧ findTableStart lines i ≤ (i : Int)
    ∧ (i : Int) ≤ findTableEnd lines i
    ∧ findTableEnd lines i ≤ (lines.length : Int) - 1
    ∧ findTableStart lines i ≠ -1
    ∧ findTableEnd lines i ≠ -1 := by
  have h1 := (findTableStart_bounds lines i).1
  have h2 := findTableStart_le lines i ht
  have h3 := (findTableEnd_bounds lines i (Nat.le_of_lt hi)).2
  have h4 := findTableEnd_ge lines i hi ht
  refine ⟨h1, h2, h4, h3, ?_, ?_⟩
  · intro h
    omega
  · intro h
    omega

/-- Claim C10, witness: the span bounds applied to the document
`["text", "|a|b|", "|-|-|", "|1|2|", "text"]` at line index 2. -/
theorem c10_span_witness :
    0 ≤ findTableStart [strL ("text"), strL ("|a|b|"), strL ("|-|-|"),
        strL ("|1|2|"), strL ("text")] 2
    ∧ findTableStart [strL ("text"), strL ("|a|b|"), strL ("|-|-|"),
        strL ("|1|2|"), strL ("text")] 2 ≤ ((2 : Nat) : Int)
    ∧ ((2 : Nat) : Int) ≤ findTableEnd [strL ("text"), strL ("|a|b|"),
        strL ("|-|-|"), strL ("|1|2|"), strL ("text")] 2
    ∧ findTableEnd [strL ("text"), strL ("|a|b|"), strL ("|-|-|"),
        strL ("|1|2|"), strL ("text")] 2
        ≤ (([strL ("text"), strL ("|a|b|"), strL ("|-|-|"), strL ("|1|2|"),
            strL ("text")] : List Str).length : Int) - 1
    ∧ findTableStart [strL ("text"), strL ("|a|b|"), strL ("|-|-|"),
        strL ("|1|2|"), strL ("text")] 2 ≠ -1
    ∧ findTableEnd [strL ("text"), strL ("|a|b|"), strL ("|-|-|"),
        strL ("|1|2|"), strL ("text")] 2 ≠ -1 :=
  c10_span [strL ("text"), strL ("|a|b|"), strL ("|-|-|"), strL ("|1|2|"),
    strL ("text")] 2 (by decide) (by decide)

end MdTables
